import Mathlib

/-!
Shallow embedding of the docpull crawl-and-extraction engine
(src/scraper/core.py, src/scraper/models.py, src/scraper/extractors/*)
together with proofs of the specified properties.

Strings are modelled by Lean `String` (a wrapper around `List Char`);
machine-level concerns do not arise.  Network fetches and browser sessions
are effects: fetches are modelled by a finite association list from URL to
`Except`-valued HTML (an `Except.error` is a raised fetch exception), and
browser-mode executions are abstract executor parameters.
-/

namespace Docpull

/-- First-match association-list lookup, the model of Python `dict`/JSON
lookup and of `data["sites"][site_id]` access. -/
def assocOpt {α β : Type} [DecidableEq α] : List (α × β) → α → Option β
  | [], _ => none
  | (k, v) :: r, a => if k = a then some v else assocOpt r a

/-- Characters of `l` strictly before the first occurrence of `c`:
the model of Python `s.split(c)[0]`. -/
def takeUntilChar (c : Char) (l : List Char) : List Char :=
  l.takeWhile (· != c)

/-- Remove every trailing `'/'`: the model of Python `s.rstrip("/")`. -/
def dropTrailingSlashes (l : List Char) : List Char :=
  (l.reverse.dropWhile (· == '/')).reverse

/-- Character-list form of `Extractor._clean_url`
(src/scraper/extractors/__init__.py line 63):
`url.split("?")[0].split("#")[0].rstrip("/")`. -/
def cleanList (l : List Char) : List Char :=
  dropTrailingSlashes (takeUntilChar '#' (takeUntilChar '?' l))

/-- `Extractor._clean_url`: remove query params and fragments from a URL
and strip any trailing slashes. -/
def clean_url (u : String) : String :=
  String.mk (cleanList u.data)

/-- Python `pre in s` restricted to a prefix position:
model of `str.startswith`. -/
def strStartsWith (s pre : String) : Bool :=
  pre.data.isPrefixOf s.data

/-- Contiguous-substring test, the model of Python `needle in hay`. -/
def isSubchain (needle : List Char) : List Char → Bool
  | [] => needle.isEmpty
  | h :: t => needle.isPrefixOf (h :: t) || isSubchain needle t

/-- Python `needle in hay` on strings. -/
def strContainsSub (hay needle : String) : Bool :=
  isSubchain needle.data hay.data

/-- Code-point lexicographic comparison of character lists: the order
Python uses to compare strings in `sorted`. -/
def listLexLe : List Char → List Char → Bool
  | [], _ => true
  | _ :: _, [] => false
  | a :: as, b :: bs =>
    if a.toNat < b.toNat then true
    else if b.toNat < a.toNat then false
    else listLexLe as bs

/-- Python string comparison `u <= v`. -/
def strLe (u v : String) : Bool :=
  listLexLe u.data v.data

/-- `strLe` as a relation. -/
def pyLe (u v : String) : Prop :=
  strLe u v = true

instance (u v : String) : Decidable (pyLe u v) :=
  inferInstanceAs (Decidable (strLe u v = true))

/-- `listLexLe` is total. -/
theorem listLexLe_total : ∀ a b : List Char, listLexLe a b = true ∨ listLexLe b a = true
  | [], _ => Or.inl rfl
  | _ :: _, [] => Or.inr rfl
  | a :: as, b :: bs => by
    by_cases h1 : a.toNat < b.toNat
    · left; simp [listLexLe, h1]
    · by_cases h2 : b.toNat < a.toNat
      · right; simp [listLexLe, h1, h2]
      · rcases listLexLe_total as bs with h | h
        · left; simp [listLexLe, h1, h2, h]
        · right; simp [listLexLe, h1, h2, h]

/-- `listLexLe` is transitive. -/
theorem listLexLe_trans : ∀ a b c : List Char,
    listLexLe a b = true → listLexLe b c = true → listLexLe a c = true
  | [], _, _ => fun _ _ => rfl
  | _ :: _, [], _ => by intro h _; simp [listLexLe] at h
  | _ :: _, _ :: _, [] => by intro _ h; simp [listLexLe] at h
  | a :: as, b :: bs, c :: cs => by
    intro h1 h2
    simp only [listLexLe] at h1 h2 ⊢
    split_ifs at h1 h2 ⊢ <;>
      first
        | rfl
        | omega
        | (exact listLexLe_trans as bs cs h1 h2)

instance : IsTotal String pyLe :=
  ⟨fun u v => listLexLe_total u.data v.data⟩

instance : IsTrans String pyLe :=
  ⟨fun u v w h1 h2 => listLexLe_trans u.data v.data w.data h1 h2⟩

/-- Python `sorted` on a duplicate-free list of strings: ascending
code-point lexicographic order. -/
def pySorted (l : List String) : List String :=
  List.insertionSort pyLe l

/-- Python set insertion `s.add(x)`, modelled on a duplicate-free list
(append order is irrelevant to every observable result, which is sorted). -/
def setInsert (x : String) (s : List String) : List String :=
  if x ∈ s then s else s ++ [x]

/-- Python `set(l)`. -/
def pySet (l : List String) : List String :=
  l.foldl (fun s x => setInsert x s) []

/-! ### The `urllib.parse` functions used by the default extractor

`_extract_links_from_html` calls `urlparse` (default.py lines 57 and 67)
and `urljoin` (line 60).  These are modelled from CPython's
`urllib/parse.py`: scheme recognition and lowercasing, authority
extraction with the bracket-matching `Invalid IPv6 URL` exception,
fragment/query/params separation, and `urljoin`'s RFC 3986 merge with
dot-segment resolution.  (The control-character stripping and the deeper
bracketed-host/NFKC validation of newer CPython are outside the modelled
input space.) -/

/-- CPython `scheme_chars`: the characters valid inside a URL scheme. -/
def scheme_chars (c : Char) : Bool :=
  c.isAlpha || c.isDigit || c == '+' || c == '-' || c == '.'

/-- Scheme recognition of `urlsplit`: a nonempty run of scheme characters
starting with a letter and followed by `':'` is split off and lowercased. -/
def splitSchemeM (l : List Char) : Option (List Char × List Char) :=
  let i := l.takeWhile (· != ':')
  if 0 < i.length ∧ i.length < l.length ∧ (l.headD ' ').isAlpha ∧
      i.all scheme_chars then
    some (i.map Char.toLower, l.drop (i.length + 1))
  else none

/-- `url.split('#', 1)` when a fragment separator is present. -/
def splitFrag (l : List Char) : List Char × List Char :=
  if '#' ∈ l then (l.takeWhile (· != '#'), (l.dropWhile (· != '#')).drop 1)
  else (l, [])

/-- `url.split('?', 1)` when a query separator is present. -/
def splitQuery (l : List Char) : List Char × List Char :=
  if '?' ∈ l then (l.takeWhile (· != '?'), (l.dropWhile (· != '?')).drop 1)
  else (l, [])

/-- The 5-tuple produced by `urlsplit`. -/
structure SplitResult where
  scheme : List Char
  netloc : List Char
  path : List Char
  query : List Char
  fragment : List Char

/-- The 6-tuple produced by `urlparse`. -/
structure ParseResult where
  scheme : List Char
  netloc : List Char
  path : List Char
  params : List Char
  query : List Char
  fragment : List Char

/-- The characters a netloc runs up to: `'/'`, `'?'` and `'#'`. -/
def netlocChar (c : Char) : Bool :=
  !(c == '/' || c == '?' || c == '#')

/-- The authority step of `urlsplit`: when the remainder begins with
`'//'`, the netloc runs to the next `'/'`, `'?'` or `'#'`, and an
unbalanced bracket raises `ValueError("Invalid IPv6 URL")`. -/
def splitNetloc : List Char → Except String (List Char × List Char)
  | [] => .ok ([], [])
  | [c] => .ok ([], [c])
  | c1 :: c2 :: r2 =>
    if c1 = '/' ∧ c2 = '/' then
      if ('[' ∈ r2.takeWhile netlocChar ∧ ']' ∉ r2.takeWhile netlocChar) ∨
          (']' ∈ r2.takeWhile netlocChar ∧ '[' ∉ r2.takeWhile netlocChar) then
        .error "Invalid IPv6 URL"
      else .ok (r2.takeWhile netlocChar, r2.drop (r2.takeWhile netlocChar).length)
    else .ok ([], c1 :: c2 :: r2)

/-- The part of `urlsplit` following scheme recognition: authority
extraction, then fragment and query separation. -/
def urlsplitCore (scheme rest0 : List Char) : Except String SplitResult :=
  match splitNetloc rest0 with
  | .error e => .error e
  | .ok (netloc, rest) =>
    .ok ⟨scheme, netloc, (splitQuery (splitFrag rest).1).1,
      (splitQuery (splitFrag rest).1).2, (splitFrag rest).2⟩

/-- `urllib.parse.urlsplit(url, scheme)` with `allow_fragments=True`. -/
def urlsplitM (u : String) (scheme0 : List Char) : Except String SplitResult :=
  match splitSchemeM u.data with
  | some p => urlsplitCore p.1 p.2
  | none => urlsplitCore scheme0 u.data

/-- `urllib.parse._splitparams`: split `;params` off the last path segment
(reached only when `';' ∈ url`). -/
def splitParams (l : List Char) : List Char × List Char :=
  if '/' ∈ l then
    let pre := (l.reverse.dropWhile (· != '/')).reverse
    let lastseg := l.drop pre.length
    if ';' ∈ lastseg then
      (pre ++ lastseg.takeWhile (· != ';'), (lastseg.dropWhile (· != ';')).drop 1)
    else (l, [])
  else
    (l.takeWhile (· != ';'), (l.dropWhile (· != ';')).drop 1)

/-- CPython `uses_params`. -/
def uses_params : List (List Char) :=
  (["", "ftp", "hdl", "prospero", "http", "imap", "https", "shttp", "rtsp",
    "rtsps", "rtspu", "sip", "sips", "mms", "sftp", "tel"] : List String).map
    String.data

/-- CPython `uses_relative`. -/
def uses_relative : List (List Char) :=
  (["", "ftp", "http", "gopher", "nntp", "imap", "wais", "file", "https",
    "shttp", "mms", "prospero", "rtsp", "rtsps", "rtspu", "sftp", "svn",
    "svn+ssh", "ws", "wss"] : List String).map String.data

/-- CPython `uses_netloc`. -/
def uses_netloc : List (List Char) :=
  (["", "ftp", "http", "gopher", "nntp", "telnet", "imap", "wais", "file",
    "mms", "https", "shttp", "snews", "prospero", "rtsp", "rtsps", "rtspu",
    "rsync", "svn", "svn+ssh", "sftp", "nfs", "git", "git+ssh", "ws",
    "wss"] : List String).map String.data

/-- `urllib.parse.urlparse(url, scheme)`: `urlsplit` plus the params
separation. -/
def urlparseM (u : String) (scheme0 : List Char) : Except String ParseResult :=
  match urlsplitM u scheme0 with
  | .error e => .error e
  | .ok s =>
    if s.scheme ∈ uses_params ∧ ';' ∈ s.path then
      .ok ⟨s.scheme, s.netloc, (splitParams s.path).1, (splitParams s.path).2,
        s.query, s.fragment⟩
    else
      .ok ⟨s.scheme, s.netloc, s.path, [], s.query, s.fragment⟩

/-- `urllib.parse.urlunsplit`. -/
def urlunsplitM (scheme netloc path query fragment : List Char) : List Char :=
  let url := path
  let url :=
    if netloc ≠ [] ∨ url.take 2 = ['/', '/'] then
      '/' :: '/' :: (netloc ++ (if url ≠ [] ∧ url.take 1 ≠ ['/'] then '/' :: url
        else url))
    else url
  let url := if scheme ≠ [] then scheme ++ ':' :: url else url
  let url := if query ≠ [] then url ++ '?' :: query else url
  if fragment ≠ [] then url ++ '#' :: fragment else url

/-- `urllib.parse.urlunparse`. -/
def urlunparseM (p : ParseResult) : List Char :=
  urlunsplitM p.scheme p.netloc
    (if p.params ≠ [] then p.path ++ ';' :: p.params else p.path)
    p.query p.fragment

/-- Python `str.split('/')`. -/
def splitSlash : List Char → List (List Char)
  | [] => [[]]
  | c :: t =>
    if c = '/' then [] :: splitSlash t
    else
      match splitSlash t with
      | [] => [[c]]
      | s :: ss => (c :: s) :: ss

/-- Python `'/'.join`. -/
def joinSlash : List (List Char) → List Char
  | [] => []
  | [s] => s
  | s :: s2 :: rest => s ++ '/' :: joinSlash (s2 :: rest)

/-- `segments[1:-1] = filter(None, segments[1:-1])` of `urljoin`: the
first and last segments stay, empty middle segments are dropped. -/
def filterMiddle : List (List Char) → List (List Char)
  | [] => []
  | [s] => [s]
  | f :: g :: rest =>
    f :: ((g :: rest).dropLast.filter (fun s => !s.isEmpty) ++
      match (g :: rest).getLast? with
      | some l2 => [l2]
      | none => [])

/-- The dot-segment resolution loop of `urljoin`: `'..'` pops the last
resolved segment (ignored when the accumulator is empty), `'.'` is
skipped, anything else is appended. -/
def resolveSegs : List (List Char) → List (List Char) → List (List Char)
  | acc, [] => acc
  | acc, seg :: rest =>
    if seg = ['.', '.'] then resolveSegs acc.dropLast rest
    else if seg = ['.'] then resolveSegs acc rest
    else resolveSegs (acc ++ [seg]) rest

/-- The segment list the `urljoin` merge resolves: the relative path's own
segments when it is absolute, otherwise the base directory's segments
followed by the relative path's, with empty middle segments filtered
out. -/
def mergeSegments (bpath rpath : List Char) : List (List Char) :=
  let base_parts := splitSlash bpath
  let base_parts :=
    if base_parts.getLast?.getD [] ≠ [] then base_parts.dropLast else base_parts
  if rpath.take 1 = ['/'] then splitSlash rpath
  else filterMiddle (base_parts ++ splitSlash rpath)

/-- The merged path of `urljoin`: dot-segment resolution over
`mergeSegments`, with a trailing empty segment restored when the reference
ends in `'.'` or `'..'`. -/
def mergePaths (bpath rpath : List Char) : List Char :=
  let segments := mergeSegments bpath rpath
  let resolved := resolveSegs [] segments
  let resolved :=
    if segments.getLast?.getD [] = ['.'] ∨
        segments.getLast?.getD [] = ['.', '.'] then resolved ++ [[]]
    else resolved
  joinSlash resolved

/-- `urllib.parse.urljoin`, including the RFC 3986 merge with dot-segment
resolution; exceptions raised by the inner `urlparse` propagate. -/
def urljoinM (base url : String) : Except String String :=
  if base = "" then .ok url
  else if url = "" then .ok base
  else
    match urlparseM base [] with
    | .error e => .error e
    | .ok b =>
      match urlparseM url b.scheme with
      | .error e => .error e
      | .ok r =>
        if r.scheme ≠ b.scheme ∨ r.scheme ∉ uses_relative then .ok url
        else if r.scheme ∈ uses_netloc ∧ r.netloc ≠ [] then
          .ok (String.mk (urlunparseM r))
        else if r.path = [] ∧ r.params = [] then
          .ok (String.mk (urlunparseM ⟨r.scheme,
            (if r.scheme ∈ uses_netloc then b.netloc else r.netloc),
            b.path, b.params,
            (if r.query = [] then b.query else r.query), r.fragment⟩))
        else
          .ok (String.mk (urlunparseM ⟨r.scheme,
            (if r.scheme ∈ uses_netloc then b.netloc else r.netloc),
            (if mergePaths b.path r.path = [] then ['/']
              else mergePaths b.path r.path),
            r.params, r.query, r.fragment⟩))

/-- Worker for `extractHrefs`; the fuel argument only bounds the recursion
(each step consumes at least one character, so `l.length` suffices) and is
structurally decreasing so that concrete crawls evaluate by `decide`. -/
def extractHrefsAux : Nat → List Char → List (List Char)
  | 0, _ => []
  | fuel + 1, l =>
    match l with
    | 'h' :: 'r' :: 'e' :: 'f' :: '=' :: '"' :: rest =>
      if rest.contains '"' then
        rest.takeWhile (· != '"') :: extractHrefsAux fuel ((rest.dropWhile (· != '"')).drop 1)
      else []
    | _ :: t => extractHrefsAux fuel t
    | [] => []

/-- All capture groups of `re.finditer(r'href="([^"]*)"', html)` in order:
each non-overlapping occurrence of `href="` followed by a closing quote
yields the characters in between (default.py line 51). -/
def extractHrefs (l : List Char) : List (List Char) :=
  extractHrefsAux l.length l

/-- `urlparse(u).netloc` as a `String`, propagating the exceptions of
`urlparse`. -/
def netlocOfE (u : String) : Except String String :=
  match urlparseM u [] with
  | .error e => .error e
  | .ok p => .ok (String.mk p.netloc)

/-- URL-resolution step of `DefaultExtractor._extract_links_from_html`
(default.py lines 55-60): a root-relative link is prefixed with the base
URL's scheme and authority, a non-`http` link is joined onto the base URL
by `urljoin`, and anything else is kept unchanged; exceptions of
`urlparse`/`urljoin` propagate. -/
def resolveLink (base_url link : String) : Except String String :=
  if strStartsWith link "/" then
    match urlparseM base_url [] with
    | .error e => .error e
    | .ok p =>
      .ok (String.mk (p.scheme ++ ':' :: '/' :: '/' :: (p.netloc ++ link.data)))
  else if !(strStartsWith link "http") then
    urljoinM base_url link
  else .ok link

/-- Loop body of `DefaultExtractor._extract_links_from_html`
(default.py lines 50-68): each captured href is cleaned, resolved against
the base URL, skipped when a non-empty pattern is not a substring, and
kept only when its authority matches the base URL's; any `urlparse`
exception aborts the whole extraction. -/
def collectLinks (base_url pattern : String) :
    List (List Char) → List String → Except String (List String)
  | [], acc => .ok acc
  | h :: t, acc =>
    match resolveLink base_url (clean_url (String.mk h)) with
    | .error e => .error e
    | .ok link =>
      if pattern ≠ "" ∧ strContainsSub link pattern = false then
        collectLinks base_url pattern t acc
      else
        match netlocOfE link with
        | .error e => .error e
        | .ok nl =>
          match netlocOfE base_url with
          | .error e => .error e
          | .ok nb =>
            collectLinks base_url pattern t
              (if nl = nb then setInsert link acc else acc)

/-- `DefaultExtractor._extract_links_from_html` (default.py lines 48-70):
extract links from an HTML string using the href regex, returning the
deduplicated set sorted ascending; `urlparse`/`urljoin` exceptions
propagate to the caller. -/
def extract_links_from_html (html base_url pattern : String) :
    Except String (List String) :=
  match collectLinks base_url pattern (extractHrefs html.data) [] with
  | .error e => .error e
  | .ok links => .ok (pySorted links)

/-! ## Data model (src/scraper/models.py) -/

/-- `Mode = Literal["fetch", "browser"]` (models.py line 8). -/
inductive Mode
  | fetch
  | browser
deriving DecidableEq, Repr

/-- `Operation = Literal["links", "content"]` (models.py line 9). -/
inductive Operation
  | links
  | content
deriving DecidableEq, Repr

/-- `ExtractMethod` (models.py line 10). -/
inductive ExtractMethod
  | click_copy
  | text_content
  | inner_html
  | custom
deriving DecidableEq, Repr

/-- `LinksConfig` (models.py lines 15-20).  `maxDepth` is a non-negative
integer per the descriptor format. -/
structure LinksConfig where
  startUrls : List String := [""]
  pattern : String := ""
  waitFor : Option String := none
  maxDepth : Nat := 2
deriving DecidableEq, Repr

/-- `ContentConfig` (models.py lines 23-28). -/
structure ContentConfig where
  mode : Option Mode := none
  waitFor : Option String := none
  selector : String := "body"
  method : ExtractMethod := .inner_html
deriving DecidableEq, Repr

/-- `SiteConfig` (models.py lines 31-38). -/
structure SiteConfig where
  name : String
  baseUrl : String
  mode : Mode
  extractor : String
  links : Option LinksConfig := none
  content : Option ContentConfig := none
deriving DecidableEq, Repr

/-- `ScrapeResult` (models.py lines 41-47). -/
structure ScrapeResult where
  site : String
  operation : Operation
  success : Bool
  data : List String
  error : Option String := none
deriving DecidableEq, Repr

/-- The dict `links_config = config.links.model_dump(); links_config["baseUrl"]
= config.baseUrl` passed to `extract_links` (core.py lines 58-59). -/
structure LinksDict where
  startUrls : List String
  pattern : String
  waitFor : Option String
  maxDepth : Nat
  baseUrl : String

/-- `LinksConfig.model_dump()` augmented with the base URL. -/
def LinksConfig.toDict (lc : LinksConfig) (baseUrl : String) : LinksDict :=
  ⟨lc.startUrls, lc.pattern, lc.waitFor, lc.maxDepth, baseUrl⟩

/-- The dict `content_config = config.content.model_dump();
content_config["baseUrl"] = config.baseUrl` (core.py lines 156-157). -/
structure ContentDict where
  mode : Option Mode
  waitFor : Option String
  selector : String
  method : ExtractMethod
  baseUrl : String

/-- `ContentConfig.model_dump()` augmented with the base URL. -/
def ContentConfig.toDict (cc : ContentConfig) (baseUrl : String) : ContentDict :=
  ⟨cc.mode, cc.waitFor, cc.selector, cc.method, baseUrl⟩

/-! ## Extraction strategies, fetch-mode operations
(src/scraper/extractors/*)

Browser-mode operations act on a live Playwright page and are effects; the
public operations below take them as abstract executor parameters.  The
fetch-mode operations (the `isinstance(page_or_html, str)` branches) are
embedded here; a raised exception is an `Except.error` carrying `str(e)`. -/

/-- Fetch-mode behaviour of one extraction strategy: `extract_links` and
`extract_content` applied to an HTML string. -/
structure ExtractorM where
  extract_links : String → LinksDict → Except String (List String)
  extract_content : String → ContentDict → Except String (List String)

/-- `DefaultExtractor.extract_links` in fetch mode (default.py lines 17-24):
delegates to `_extract_links_from_html` with the configured base URL and
pattern. -/
def DefaultExtractor.extract_links (html : String) (config : LinksDict) :
    Except String (List String) :=
  extract_links_from_html html config.baseUrl config.pattern

/-- `DefaultExtractor.extract_content` in fetch mode (default.py lines
29-36): computes `method`/`selector` from the config but returns the HTML
as-is without using them. -/
def DefaultExtractor.extract_content (html : String) (_config : ContentDict) :
    Except String (List String) :=
  .ok [html]

/-- The `default` extractor. -/
def defaultExtractor : ExtractorM :=
  ⟨DefaultExtractor.extract_links, DefaultExtractor.extract_content⟩

/-- `TerraformExtractor` fetch-mode operations (terraform.py lines 31-41 and
65-71): both raise `ValueError` when given an HTML string. -/
def terraformExtractor : ExtractorM :=
  ⟨fun _ _ => .error "TerraformExtractor requires browser mode for link extraction",
   fun _ _ => .error "TerraformExtractor requires browser mode for content extraction"⟩

/-- `ModalExtractor` (modal.py): inherits the default link extraction;
`extract_content` in fetch mode returns the HTML as-is (lines 23-25). -/
def modalExtractor : ExtractorM :=
  ⟨DefaultExtractor.extract_links, fun html _ => .ok [html]⟩

/-- `ConvexExtractor` (convex.py): inherits the default link extraction;
`extract_content` in fetch mode returns the HTML as-is (lines 23-25). -/
def convexExtractor : ExtractorM :=
  ⟨DefaultExtractor.extract_links, fun html _ => .ok [html]⟩

/-- `CursorExtractor` (cursor.py): inherits the default link extraction;
`extract_content` in fetch mode returns the HTML as-is (lines 23-25). -/
def cursorExtractor : ExtractorM :=
  ⟨DefaultExtractor.extract_links, fun html _ => .ok [html]⟩

/-- `ClaudeCodeExtractor` (claude_code.py): inherits the default link
extraction; `extract_content` in fetch mode returns the HTML as-is
(lines 23-25). -/
def claudeCodeExtractor : ExtractorM :=
  ⟨DefaultExtractor.extract_links, fun html _ => .ok [html]⟩

/-- `UnslothExtractor` (unsloth.py): inherits the default link extraction;
`extract_content` in fetch mode returns the HTML as-is (lines 23-25). -/
def unslothExtractor : ExtractorM :=
  ⟨DefaultExtractor.extract_links, fun html _ => .ok [html]⟩

/-- The extractor registry in registration order
(extractors/__init__.py lines 10 and 66-73). -/
def EXTRACTORS : List (String × ExtractorM) :=
  [("default", defaultExtractor),
   ("terraform", terraformExtractor),
   ("modal", modalExtractor),
   ("convex", convexExtractor),
   ("cursor", cursorExtractor),
   ("claude_code", claudeCodeExtractor),
   ("unsloth", unslothExtractor)]

/-! ## Fetch executor and the fetch-mode crawl loop (src/scraper/core.py) -/

/-- The reachable web, as seen by `fetch_html` (fetchers.py lines 13-27):
a finite map from URL to either the page's HTML or the message of the
exception the fetch raises. -/
def Web : Type := List (String × Except String String)

/-- `fetch_html url`: a URL outside the map raises a connection error. -/
def fetch_html (web : Web) (url : String) : Except String String :=
  match assocOpt web url with
  | some r => r
  | none => .error ("Cannot connect to host " ++ url)

/-- Inner dequeue loop of `scrape_links` (core.py lines 75-80): pop up to
`k` frontier entries that are unvisited and within the depth bound, marking
each popped entry visited.  Returns `(batch, remaining frontier, visited)`. -/
def popBatch (max_depth : Nat) :
    List (String × Nat) → List String → Nat →
    List (String × Nat) × List (String × Nat) × List String
  | [], visited, _ => ([], [], visited)
  | tv, visited, 0 => ([], tv, visited)
  | (url, depth) :: rest, visited, k + 1 =>
    if url ∉ visited ∧ depth ≤ max_depth then
      let r := popBatch max_depth rest (setInsert url visited) k
      ((url, depth) :: r.1, r.2.1, r.2.2)
    else
      popBatch max_depth rest visited (k + 1)

/-- Inner link loop of `scrape_links` (core.py lines 97-100): each link is
added to `all_links`, and enqueued at `depth + 1` when the current depth is
below the bound and the link is unvisited. -/
def addLinks (max_depth depth : Nat) (visited : List String) :
    List String → List String → List (String × Nat) →
    List String × List (String × Nat)
  | [], all_links, to_visit => (all_links, to_visit)
  | link :: ls, all_links, to_visit =>
    addLinks max_depth depth visited ls (setInsert link all_links)
      (if depth < max_depth ∧ link ∉ visited then to_visit ++ [(link, depth + 1)]
       else to_visit)

/-- Batch-result loop of `scrape_links` (core.py lines 85-100): each batch
entry's fetch outcome is consumed in order; a fetch exception is logged and
skipped, a successful page goes through the strategy's `extract_links`
(whose own exception aborts the whole call), and the produced links are
folded by `addLinks`. -/
def processBatch (web : Web) (extract : String → Except String (List String))
    (max_depth : Nat) :
    List (String × Nat) → List String → List String → List (String × Nat) →
    Except String (List String × List (String × Nat))
  | [], _, all_links, to_visit => .ok (all_links, to_visit)
  | (url, depth) :: rest, visited, all_links, to_visit =>
    match fetch_html web url with
    | .error _ => processBatch web extract max_depth rest visited all_links to_visit
    | .ok html =>
      match extract html with
      | .error e => .error e
      | .ok links =>
        let r := addLinks max_depth depth visited links all_links to_visit
        processBatch web extract max_depth rest visited r.1 r.2

/-- Outer `while to_visit` loop of `scrape_links` (core.py lines 74-100).
The Python loop terminates because every URL is dequeued at most once from
a finite web; the embedding makes this explicit with a fuel parameter that
`scrape_links` instantiates with a bound (`fuelFor`) exceeding the number
of loop iterations, so the exhaustion branch is never taken there.
Returns `(all_links, visited)`. -/
def crawlLoop (web : Web) (extract : String → Except String (List String))
    (max_depth : Nat) :
    Nat → List (String × Nat) → List String → List String →
    Except String (List String × List String)
  | _, [], visited, all_links => .ok (all_links, visited)
  | 0, _ :: _, visited, all_links => .ok (all_links, visited)
  | fuel + 1, tv@(_ :: _), visited, all_links =>
    let pb := popBatch max_depth tv visited 10
    if pb.1 = [] then
      crawlLoop web extract max_depth fuel pb.2.1 pb.2.2 all_links
    else
      match processBatch web extract max_depth pb.1 pb.2.2 all_links pb.2.1 with
      | .error e => .error e
      | .ok (all2, tv2) => crawlLoop web extract max_depth fuel tv2 pb.2.2 all2

/-- Fuel bound for `crawlLoop`: one unit per seed and per link occurrence in
the web, plus slack.  Each loop iteration permanently consumes at least one
frontier entry and every frontier entry stems from a seed or from one link
occurrence of a fetched page, so the loop iterates fewer than `fuelFor`
times. -/
def fuelFor (web : Web) (extract : String → Except String (List String))
    (seeds : List String) : Nat :=
  seeds.length +
    (web.map (fun p =>
      match p.2 with
      | .ok h => (match extract h with | .ok ls => ls.length | .error _ => 0)
      | .error _ => 0)).sum + 2

/-! ## Public operations (src/scraper/core.py lines 35-196)

`load_site_config` reads the sites JSON; it is modelled by an association
list `sites` passed in.  The browser-mode execution blocks (`browser_page`
plus the strategy's `setup_browser` and browser-branch operation) are I/O
and enter as abstract executor parameters whose `Except.error` is a raised
exception caught by the enclosing `try`. -/

/-- Python `repr` of a list of strings, with the per-element quotes
omitted; only its shape matters here. -/
def pyListRepr (l : List String) : String :=
  "[" ++ String.intercalate ", " l ++ "]"

/-- `scrape_links` (core.py lines 35-128).  `browserLinks` models the
browser-mode block of lines 104-110 applied to the start URL, the wait
condition and the links config. -/
def scrape_links (sites : List (String × SiteConfig)) (web : Web)
    (browserLinks : String → Option String → LinksDict → Except String (List String))
    (site_id : String) : ScrapeResult :=
  match assocOpt sites site_id with
  | none =>
    ⟨site_id, .links, false, [],
      some ("Unknown site: " ++ site_id ++ ". Available: " ++
        pyListRepr (sites.map Prod.fst))⟩
  | some config =>
    match assocOpt EXTRACTORS config.extractor with
    | none =>
      ⟨site_id, .links, false, [],
        some ("Unknown extractor: " ++ config.extractor ++ ". Available: " ++
          pyListRepr (EXTRACTORS.map Prod.fst))⟩
    | some extractor =>
      match config.links with
      | none => ⟨site_id, .links, false, [], some "Site has no links configuration"⟩
      | some linksCfg =>
        let links_config := linksCfg.toDict config.baseUrl
        match config.mode with
        | .fetch =>
          let start_urls := linksCfg.startUrls.map
            (fun path => if path = "" then config.baseUrl else config.baseUrl ++ path)
          let to_visit := start_urls.map (fun url => (url, 0))
          let extract := fun html => extractor.extract_links html links_config
          match crawlLoop web extract linksCfg.maxDepth
              (fuelFor web extract start_urls) to_visit [] [] with
          | .error e => ⟨site_id, .links, false, [], some e⟩
          | .ok (all_links, _) =>
            ⟨site_id, .links, true, pySorted all_links, none⟩
        | .browser =>
          let start_url := config.baseUrl ++ (linksCfg.startUrls.head?.getD "")
          match browserLinks start_url linksCfg.waitFor links_config with
          | .error e => ⟨site_id, .links, false, [], some e⟩
          | .ok links => ⟨site_id, .links, true, pySorted (pySet links), none⟩

/-- `scrape_content` (core.py lines 131-196).  `browserContent` models the
browser-mode block of lines 166-178 applied to the page URL, the wait
condition, the granted permissions and the content config. -/
def scrape_content (sites : List (String × SiteConfig)) (web : Web)
    (browserContent : String → Option String → List String → ContentDict →
      Except String (List String))
    (site_id path : String) : ScrapeResult :=
  match assocOpt sites site_id with
  | none =>
    ⟨site_id, .content, false, [],
      some ("Unknown site: " ++ site_id ++ ". Available: " ++
        pyListRepr (sites.map Prod.fst))⟩
  | some config =>
    match assocOpt EXTRACTORS config.extractor with
    | none =>
      ⟨site_id, .content, false, [],
        some ("Unknown extractor: " ++ config.extractor ++ ". Available: " ++
          pyListRepr (EXTRACTORS.map Prod.fst))⟩
    | some extractor =>
      match config.content with
      | none => ⟨site_id, .content, false, [], some "Site has no content configuration"⟩
      | some contentCfg =>
        let url := config.baseUrl ++ path
        let content_config := contentCfg.toDict config.baseUrl
        let mode := contentCfg.mode.getD config.mode
        match mode with
        | .fetch =>
          match fetch_html web url with
          | .error e => ⟨site_id, .content, false, [], some e⟩
          | .ok html =>
            match extractor.extract_content html content_config with
            | .error e => ⟨site_id, .content, false, [], some e⟩
            | .ok content => ⟨site_id, .content, true, content, none⟩
        | .browser =>
          let permissions :=
            if contentCfg.method = .click_copy then
              ["clipboard-read", "clipboard-write"]
            else []
          match browserContent url contentCfg.waitFor permissions content_config with
          | .error e => ⟨site_id, .content, false, [], some e⟩
          | .ok content => ⟨site_id, .content, true, content, none⟩

/-! ## General lemmas about the modelled Python sets and sorting -/

theorem mem_setInsert {x a : String} {s : List String} :
    a ∈ setInsert x s ↔ a = x ∨ a ∈ s := by
  unfold setInsert
  split_ifs with h
  · constructor
    · exact Or.inr
    · rintro (rfl | ha) <;> [exact h; exact ha]
  · simp [List.mem_append, or_comm]

theorem nodup_setInsert {x : String} {s : List String} (h : s.Nodup) :
    (setInsert x s).Nodup := by
  unfold setInsert
  split_ifs with hx
  · exact h
  · simpa [List.nodup_append, hx] using h

theorem mem_pySorted {a : String} {l : List String} :
    a ∈ pySorted l ↔ a ∈ l :=
  (List.perm_insertionSort pyLe l).mem_iff

theorem sorted_pySorted (l : List String) : (pySorted l).Sorted pyLe :=
  List.sorted_insertionSort pyLe l

theorem nodup_pySorted {l : List String} (h : l.Nodup) : (pySorted l).Nodup :=
  (List.perm_insertionSort pyLe l).nodup_iff.mpr h

theorem nodup_pySet (l : List String) : (pySet l).Nodup := by
  suffices h : ∀ s : List String, s.Nodup → (l.foldl (fun s x => setInsert x s) s).Nodup by
    exact h [] List.nodup_nil
  induction l with
  | nil => intro s hs; exact hs
  | cons x xs ih => intro s hs; exact ih _ (nodup_setInsert hs)

/-! ## Concrete instances used by individual claims -/

/-- The page served at `https://docs-a.test`, containing exactly the three
links of the spec's concrete scenario. -/
def docsAHtml : String :=
  "<a href=\"/guide/intro\">i</a><a href=\"/blog\">b</a><a href=\"https://other.test/guide/x\">x</a>"

/-- The `docs-a` site descriptor of the spec's concrete scenario. -/
def docsASites : List (String × SiteConfig) :=
  [("docs-a",
    { name := "Docs A", baseUrl := "https://docs-a.test", mode := .fetch,
      extractor := "default",
      links := some { startUrls := [""], pattern := "/guide", maxDepth := 1 } })]

/-- The reachable web of the spec's concrete scenario: the base page with
the three links, and a link-free page at the discovered URL. -/
def docsAWeb : Web :=
  [("https://docs-a.test", .ok docsAHtml),
   ("https://docs-a.test/guide/intro", .ok "<p>fin</p>")]

/-- C1: for site `docs-a` (`baseUrl=https://docs-a.test`, seed path `""`,
pattern `"/guide"`, `maxDepth=1`, fetch mode) whose base page contains
exactly the links `/guide/intro`, `/blog` and `https://other.test/guide/x`,
link discovery returns `success=true` with
`data=["https://docs-a.test/guide/intro"]`. -/
theorem C1_concrete_scenario :
    scrape_links docsASites docsAWeb (fun _ _ _ => .error "no browser") "docs-a" =
      ⟨"docs-a", .links, true, ["https://docs-a.test/guide/intro"], none⟩ := by
  decide

/-- C10: every registered extractor except the render-only `terraform`
variant, asked for content in fetch mode (HTML-string input), returns the
one-element list with the raw markup unchanged, whatever selector and
method the content config carries. -/
theorem C10_fetch_content_identity :
    ∀ nm ex, (nm, ex) ∈ EXTRACTORS → nm ≠ "terraform" →
      ∀ (html : String) (cfg : ContentDict), ex.extract_content html cfg = .ok [html] := by
  intro nm ex hmem hne html cfg
  simp only [EXTRACTORS, List.mem_cons, List.not_mem_nil, or_false, Prod.mk.injEq] at hmem
  rcases hmem with ⟨h1, h2⟩ | ⟨h1, h2⟩ | ⟨h1, h2⟩ | ⟨h1, h2⟩ | ⟨h1, h2⟩ | ⟨h1, h2⟩ | ⟨h1, h2⟩ <;>
    subst h2
  · rfl
  · exact absurd h1 hne
  all_goals rfl

/-- Witness for C10 at the `modal` extractor. -/
theorem C10_witness :
    ("modal", modalExtractor) ∈ EXTRACTORS ∧ ("modal" : String) ≠ "terraform" ∧
      modalExtractor.extract_content "<p>x</p>"
        (ContentConfig.toDict {} "https://b.test") = .ok ["<p>x</p>"] :=
  ⟨by simp [EXTRACTORS], by decide,
    C10_fetch_content_identity "modal" modalExtractor (by simp [EXTRACTORS]) (by decide) _ _⟩

/-- C5: both public operations return an all-or-nothing envelope on every
exit path: a failed result carries empty data and an error message, and a
successful result carries the materialized data with no error field.  The
`success=true` data is exactly what the operation computed, which the
totality of the embedding materializes by construction. -/
theorem C5_result_integrity
    (sites : List (String × SiteConfig)) (web : Web)
    (bL : String → Option String → LinksDict → Except String (List String))
    (bC : String → Option String → List String → ContentDict → Except String (List String))
    (site_id path : String) :
    ((scrape_links sites web bL site_id).success = true ∧
       (scrape_links sites web bL site_id).error = none ∨
     (scrape_links sites web bL site_id).success = false ∧
       (scrape_links sites web bL site_id).data = [] ∧
       ∃ e, (scrape_links sites web bL site_id).error = some e) ∧
    ((scrape_content sites web bC site_id path).success = true ∧
       (scrape_content sites web bC site_id path).error = none ∨
     (scrape_content sites web bC site_id path).success = false ∧
       (scrape_content sites web bC site_id path).data = [] ∧
       ∃ e, (scrape_content sites web bC site_id path).error = some e) := by
  constructor
  · unfold scrape_links
    dsimp only
    repeat' split
    all_goals simp
  · unfold scrape_content
    dsimp only
    repeat' split
    all_goals simp

/-- C6: the effective mode of a content-extraction call is the
ContentConfig's mode when set and the SiteConfig's mode otherwise, and a
content-level browser ("render") override routes the call through the
browser executor: the result is independent of the fetch executor's web
and equals the browser-branch outcome. -/
theorem C6_mode_dispatch
    (sites : List (String × SiteConfig)) (site_id path : String)
    (cfg : SiteConfig) (cc : ContentConfig) (ex : ExtractorM)
    (hsite : assocOpt sites site_id = some cfg)
    (hx : assocOpt EXTRACTORS cfg.extractor = some ex)
    (hcc : cfg.content = some cc) :
    (∀ m, cc.mode = some m → cc.mode.getD cfg.mode = m) ∧
    (cc.mode = none → cc.mode.getD cfg.mode = cfg.mode) ∧
    (cc.mode = some .browser → ∀ web web' bC,
        scrape_content sites web bC site_id path =
          scrape_content sites web' bC site_id path) ∧
    (cc.mode = some .browser → ∀ web bC,
        scrape_content sites web bC site_id path =
          match bC (cfg.baseUrl ++ path) cc.waitFor
              (if cc.method = .click_copy then ["clipboard-read", "clipboard-write"]
               else [])
              (cc.toDict cfg.baseUrl) with
          | .error e => ⟨site_id, .content, false, [], some e⟩
          | .ok content => ⟨site_id, .content, true, content, none⟩) := by
  refine ⟨fun m hm => by simp [hm], fun hm => by simp [hm], ?_, ?_⟩
  · intro hm web web' bC
    simp [scrape_content, hsite, hx, hcc, hm]
  · intro hm web bC
    simp [scrape_content, hsite, hx, hcc, hm]

/-- A site whose site-level mode is fetch but whose content config
overrides the mode to browser. -/
def modeSites : List (String × SiteConfig) :=
  [("m", { name := "M", baseUrl := "https://m.test", mode := .fetch,
           extractor := "modal",
           content := some { mode := some .browser, selector := "x",
                             method := .click_copy } })]

/-- A fake browser executor that records the URL it was called on. -/
def modeBrowserExec : String → Option String → List String → ContentDict →
    Except String (List String) :=
  fun url _ _ _ => .ok ["RENDERED:" ++ url]

/-- Witness for C6: with the browser override, the call ignores the fetch
web entirely and returns the injected browser executor's answer. -/
theorem C6_witness :
    scrape_content modeSites [("https://m.test/p", Except.ok "H")]
        modeBrowserExec "m" "/p" =
      scrape_content modeSites [] modeBrowserExec "m" "/p" ∧
    scrape_content modeSites [] modeBrowserExec "m" "/p" =
      ⟨"m", .content, true, ["RENDERED:https://m.test/p"], none⟩ :=
  ⟨(C6_mode_dispatch modeSites "m" "/p" _ _ _ rfl rfl rfl).2.2.1 rfl _ _ _,
   by decide⟩

theorem popBatch_cons_take {maxD : Nat} {url : String} {depth : Nat}
    {rest : List (String × Nat)} {visited : List String} {k : Nat}
    (h : url ∉ visited ∧ depth ≤ maxD) :
    popBatch maxD ((url, depth) :: rest) visited (k + 1) =
      ((url, depth) :: (popBatch maxD rest (setInsert url visited) k).1,
       (popBatch maxD rest (setInsert url visited) k).2.1,
       (popBatch maxD rest (setInsert url visited) k).2.2) := by
  simp [popBatch, h]

/-- When the first seed's fetch succeeds but the strategy's link extraction
raises, the raised error aborts the whole crawl loop. -/
theorem crawlLoop_first_extract_error (web : Web)
    (extract : String → Except String (List String)) (maxD fuel : Nat)
    (s0 : String) (tvr : List (String × Nat)) (h0 e : String)
    (hf : fetch_html web s0 = .ok h0) (hx : extract h0 = .error e) :
    crawlLoop web extract maxD (fuel + 1) ((s0, 0) :: tvr) [] [] = .error e := by
  have h10 : (10 : Nat) = 9 + 1 := rfl
  simp only [crawlLoop, h10]
  rw [popBatch_cons_take (by simp)]
  simp [processBatch, hf, hx]

/-- C9: the render-only terraform strategy raises an explicit error from
both of its fetch-mode operations, and each public operation surfaces that
raised error as a `success=false` result carrying the message (for link
discovery, provided the first seed's fetch itself succeeds so that the
extraction is reached; for content extraction, provided the page fetch
succeeds). -/
theorem C9_terraform_fail_fast
    (sites : List (String × SiteConfig)) (web : Web)
    (bL : String → Option String → LinksDict → Except String (List String))
    (bC : String → Option String → List String → ContentDict → Except String (List String))
    (site_id pathc : String) (cfg : SiteConfig) (lc : LinksConfig)
    (cc : ContentConfig) (p0 : String) (ps : List String) (h0 hc : String)
    (hsite : assocOpt sites site_id = some cfg)
    (hex : cfg.extractor = "terraform")
    (hmode : cfg.mode = .fetch)
    (hlinks : cfg.links = some lc)
    (hseeds : lc.startUrls = p0 :: ps)
    (hfetch : fetch_html web (if p0 = "" then cfg.baseUrl else cfg.baseUrl ++ p0) = .ok h0)
    (hcc : cfg.content = some cc)
    (hccmode : cc.mode.getD cfg.mode = .fetch)
    (hfetchc : fetch_html web (cfg.baseUrl ++ pathc) = .ok hc) :
    (∀ html lcfg, terraformExtractor.extract_links html lcfg =
        .error "TerraformExtractor requires browser mode for link extraction") ∧
    (∀ html ccfg, terraformExtractor.extract_content html ccfg =
        .error "TerraformExtractor requires browser mode for content extraction") ∧
    scrape_links sites web bL site_id =
      ⟨site_id, .links, false, [],
        some "TerraformExtractor requires browser mode for link extraction"⟩ ∧
    scrape_content sites web bC site_id pathc =
      ⟨site_id, .content, false, [],
        some "TerraformExtractor requires browser mode for content extraction"⟩ := by
  have hterr : assocOpt EXTRACTORS "terraform" = some terraformExtractor := rfl
  refine ⟨fun _ _ => rfl, fun _ _ => rfl, ?_, ?_⟩
  · simp only [scrape_links, hsite, hex, hterr, hlinks, hmode, hseeds]
    rw [show fuelFor web
          (fun html => terraformExtractor.extract_links html (lc.toDict cfg.baseUrl))
          (List.map (fun path => if path = "" then cfg.baseUrl else cfg.baseUrl ++ path)
            (p0 :: ps)) =
        (fuelFor web
          (fun html => terraformExtractor.extract_links html (lc.toDict cfg.baseUrl))
          (List.map (fun path => if path = "" then cfg.baseUrl else cfg.baseUrl ++ path)
            (p0 :: ps)) - 1) + 1 from rfl]
    rw [List.map_cons, List.map_cons,
      crawlLoop_first_extract_error web _ lc.maxDepth _ _ _ h0
        "TerraformExtractor requires browser mode for link extraction" hfetch rfl]
  · simp only [scrape_content, hsite, hex, hterr, hcc]
    rw [hccmode]
    simp [hfetchc, terraformExtractor]

/-- A terraform-extractor site configured (contrary to its requirement) in
fetch mode, with both sub-configs present. -/
def tfSites : List (String × SiteConfig) :=
  [("tf", { name := "TF", baseUrl := "https://tf.test", mode := .fetch,
            extractor := "terraform",
            links := some { startUrls := [""], pattern := "", maxDepth := 1 },
            content := some { selector := "#c", method := .inner_html } })]

/-- Web for the terraform witness: both fetches succeed. -/
def tfWeb : Web :=
  [("https://tf.test", .ok "<a href=\"/x\">x</a>"),
   ("https://tf.test/p", .ok "<p>c</p>")]

/-- Witness for C9 on the concrete terraform site. -/
theorem C9_witness :
    scrape_links tfSites tfWeb (fun _ _ _ => .error "nb") "tf" =
      ⟨"tf", .links, false, [],
        some "TerraformExtractor requires browser mode for link extraction"⟩ ∧
    scrape_content tfSites tfWeb (fun _ _ _ _ => .error "nb") "tf" "/p" =
      ⟨"tf", .content, false, [],
        some "TerraformExtractor requires browser mode for content extraction"⟩ :=
  ⟨(C9_terraform_fail_fast tfSites tfWeb (fun _ _ _ => .error "nb")
      (fun _ _ _ _ => .error "nb") "tf" "/p" _ _ _ "" [] _ _
      rfl rfl rfl rfl rfl rfl rfl rfl rfl).2.2.1,
   (C9_terraform_fail_fast tfSites tfWeb (fun _ _ _ => .error "nb")
      (fun _ _ _ _ => .error "nb") "tf" "/p" _ _ _ "" [] _ _
      rfl rfl rfl rfl rfl rfl rfl rfl rfl).2.2.2⟩

/-! ## Lemmas about URL normalization (claims C8 and C3) -/

theorem takeWhile_append_of_all {p : Char → Bool} {l₁ l₂ : List Char}
    (h : ∀ a ∈ l₁, p a = true) :
    (l₁ ++ l₂).takeWhile p = l₁ ++ l₂.takeWhile p := by
  induction l₁ with
  | nil => simp
  | cons x xs ih =>
    have hx := h x (by simp)
    simp [List.takeWhile_cons, hx, ih (fun a ha => h a (by simp [ha]))]

theorem dropWhile_append_of_all {p : Char → Bool} {l₁ l₂ : List Char}
    (h : ∀ a ∈ l₁, p a = true) :
    (l₁ ++ l₂).dropWhile p = l₂.dropWhile p := by
  induction l₁ with
  | nil => simp
  | cons x xs ih =>
    have hx := h x (by simp)
    simp [List.dropWhile_cons, hx, ih (fun a ha => h a (by simp [ha]))]

theorem dropWhile_eq_self_of_head {p : Char → Bool} {l : List Char}
    (h : ∀ x, l.head? = some x → p x = false) : l.dropWhile p = l := by
  cases l with
  | nil => rfl
  | cons x xs => simp [List.dropWhile_cons, h x rfl]

theorem dropWhile_idem {p : Char → Bool} (l : List Char) :
    (l.dropWhile p).dropWhile p = l.dropWhile p := by
  induction l with
  | nil => rfl
  | cons x xs ih =>
    by_cases hx : p x = true
    · simp [List.dropWhile_cons, hx, ih]
    · simp [List.dropWhile_cons, hx]

theorem head?_dropWhile {p : Char → Bool} :
    ∀ (l : List Char) (x : Char), (l.dropWhile p).head? = some x → p x = false
  | [], x => by simp
  | a :: t, x => by
    by_cases ha : p a = true
    · rw [List.dropWhile_cons, if_pos ha]
      exact head?_dropWhile t x
    · rw [List.dropWhile_cons, if_neg ha]
      intro h
      injection h with h
      subst h
      simpa using ha

theorem mem_takeUntilChar_sub {c a : Char} {l : List Char}
    (h : a ∈ takeUntilChar c l) : a ∈ l :=
  (List.takeWhile_sublist _).subset h

theorem not_mem_takeUntilChar (c : Char) (l : List Char) : c ∉ takeUntilChar c l := by
  induction l with
  | nil => simp [takeUntilChar]
  | cons x xs ih =>
    unfold takeUntilChar at ih ⊢
    by_cases hx : x = c
    · subst hx
      simp [List.takeWhile_cons]
    · simp only [List.takeWhile_cons, bne_iff_ne, ne_eq, hx, not_false_eq_true, if_true,
        List.mem_cons]
      rintro (rfl | h)
      · exact hx rfl
      · exact ih h

theorem takeUntilChar_of_not_mem {c : Char} {l : List Char} (h : c ∉ l) :
    takeUntilChar c l = l := by
  induction l with
  | nil => rfl
  | cons x xs ih =>
    have hx : x ≠ c := fun e => h (by simp [e])
    have h2 : c ∉ xs := fun hc => h (List.mem_cons_of_mem _ hc)
    unfold takeUntilChar at ih ⊢
    simp [List.takeWhile_cons, hx, ih h2]

theorem mem_dropTrailingSlashes {a : Char} {l : List Char}
    (h : a ∈ dropTrailingSlashes l) : a ∈ l := by
  unfold dropTrailingSlashes at h
  rw [List.mem_reverse] at h
  have h2 := (List.dropWhile_sublist (l := l.reverse) (· == '/')).subset h
  rwa [List.mem_reverse] at h2

theorem dropTrailingSlashes_idem (l : List Char) :
    dropTrailingSlashes (dropTrailingSlashes l) = dropTrailingSlashes l := by
  unfold dropTrailingSlashes
  rw [List.reverse_reverse, dropWhile_idem]

theorem getLast?_dropTrailingSlashes_ne (l : List Char) :
    (dropTrailingSlashes l).getLast? ≠ some '/' := by
  unfold dropTrailingSlashes
  rw [List.getLast?_reverse]
  intro h
  have := head?_dropWhile _ _ h
  simp at this

theorem not_mem_cleanList_q (l : List Char) : '?' ∉ cleanList l := fun h =>
  not_mem_takeUntilChar '?' l
    (mem_takeUntilChar_sub (mem_dropTrailingSlashes h))

theorem not_mem_cleanList_h (l : List Char) : '#' ∉ cleanList l := fun h =>
  not_mem_takeUntilChar '#' (takeUntilChar '?' l) (mem_dropTrailingSlashes h)

theorem cleanList_eq_self {l : List Char} (hq : '?' ∉ l) (hh : '#' ∉ l)
    (hl : l.getLast? ≠ some '/') : cleanList l = l := by
  unfold cleanList
  rw [takeUntilChar_of_not_mem hq, takeUntilChar_of_not_mem hh]
  unfold dropTrailingSlashes
  rw [dropWhile_eq_self_of_head, List.reverse_reverse]
  intro x hx
  rw [List.head?_reverse] at hx
  have hx2 : x ≠ '/' := fun e => hl (by rw [hx, e])
  simpa using hx2

theorem cleanList_idem (l : List Char) : cleanList (cleanList l) = cleanList l :=
  cleanList_eq_self (not_mem_cleanList_q l) (not_mem_cleanList_h l)
    (getLast?_dropTrailingSlashes_ne _)

theorem dropTrailingSlashes_append_replicate {core : List Char} (n : Nat)
    (hl : core.getLast? ≠ some '/') :
    dropTrailingSlashes (core ++ List.replicate n '/') = core := by
  unfold dropTrailingSlashes
  rw [List.reverse_append, List.reverse_replicate,
    dropWhile_append_of_all (by
      intro a ha
      rw [List.eq_of_mem_replicate ha]
      rfl),
    dropWhile_eq_self_of_head, List.reverse_reverse]
  intro x hx
  rw [List.head?_reverse] at hx
  have hx2 : x ≠ '/' := fun e => hl (by rw [hx, e])
  simpa using hx2

/-- A suffix that normalization removes: trailing slashes followed by
nothing, a query string, or a fragment. -/
def TrailingJunk (rest : List Char) : Prop :=
  rest = [] ∨ (∃ t, rest = '?' :: t) ∨ (∃ t, rest = '#' :: t)

theorem cleanList_core_junk {core : List Char} (n : Nat) {rest : List Char}
    (hq : '?' ∉ core) (hh : '#' ∉ core) (hl : core.getLast? ≠ some '/')
    (hrest : TrailingJunk rest) :
    cleanList (core ++ List.replicate n '/' ++ rest) = core := by
  have hq2 : '?' ∉ core ++ List.replicate n '/' := by
    intro h
    rcases List.mem_append.mp h with h | h
    · exact hq h
    · simpa using List.eq_of_mem_replicate h
  have hh2 : '#' ∉ core ++ List.replicate n '/' := by
    intro h
    rcases List.mem_append.mp h with h | h
    · exact hh h
    · simpa using List.eq_of_mem_replicate h
  have hallq : ∀ a ∈ core ++ List.replicate n '/', (a != '?') = true := by
    intro a ha
    have : a ≠ '?' := fun e => hq2 (e ▸ ha)
    simpa using this
  have hallh : ∀ a ∈ core ++ List.replicate n '/', (a != '#') = true := by
    intro a ha
    have : a ≠ '#' := fun e => hh2 (e ▸ ha)
    simpa using this
  rcases hrest with rfl | ⟨t, rfl⟩ | ⟨t, rfl⟩
  · rw [List.append_nil]
    unfold cleanList
    rw [takeUntilChar_of_not_mem hq2, takeUntilChar_of_not_mem hh2]
    exact dropTrailingSlashes_append_replicate n hl
  · unfold cleanList takeUntilChar
    rw [takeWhile_append_of_all hallq,
      show List.takeWhile (· != '?') ('?' :: t) = [] from by simp,
      List.append_nil,
      show List.takeWhile (· != '#') (core ++ List.replicate n '/') =
        core ++ List.replicate n '/' from takeUntilChar_of_not_mem hh2]
    exact dropTrailingSlashes_append_replicate n hl
  · unfold cleanList takeUntilChar
    rw [takeWhile_append_of_all hallq,
      show List.takeWhile (· != '?') ('#' :: t) =
        '#' :: List.takeWhile (· != '?') t from by rw [List.takeWhile_cons]; rfl,
      takeWhile_append_of_all hallh,
      show List.takeWhile (· != '#') ('#' :: List.takeWhile (· != '?') t) = [] from by simp,
      List.append_nil]
    exact dropTrailingSlashes_append_replicate n hl

/-- Two URLs differ only by query string, fragment, or trailing slashes:
both extend one common core (itself free of `'?'`, `'#'` and a trailing
slash) by trailing slashes and an optional query-or-fragment suffix. -/
def DiffersOnlyByJunk (u v : String) : Prop :=
  ∃ core n₁ r₁ n₂ r₂, '?' ∉ core ∧ '#' ∉ core ∧ core.getLast? ≠ some '/' ∧
    TrailingJunk r₁ ∧ TrailingJunk r₂ ∧
    u.data = core ++ List.replicate n₁ '/' ++ r₁ ∧
    v.data = core ++ List.replicate n₂ '/' ++ r₂

/-- C8: `_clean_url` is idempotent, and any two URLs differing only by
query string, fragment, or trailing slashes normalize to the identical
canonical form. -/
theorem C8_normalization :
    (∀ u : String, clean_url (clean_url u) = clean_url u) ∧
    (∀ u v : String, DiffersOnlyByJunk u v → clean_url u = clean_url v) := by
  constructor
  · intro u
    show String.mk (cleanList (cleanList u.data)) = String.mk (cleanList u.data)
    exact congrArg String.mk (cleanList_idem u.data)
  · rintro u v ⟨core, n1, r1, n2, r2, hq, hh, hl, hj1, hj2, hu, hv⟩
    unfold clean_url
    rw [hu, hv, cleanList_core_junk n1 hq hh hl hj1, cleanList_core_junk n2 hq hh hl hj2]

/-- Witness for C8: a query-and-trailing-slash URL and a fragment URL over
the same core normalize identically. -/
theorem C8_witness :
    clean_url (clean_url "https://a.test/b/?q=1") = clean_url "https://a.test/b/?q=1" ∧
    clean_url "https://a.test/b/?q=1" = clean_url "https://a.test/b#frag" :=
  ⟨C8_normalization.1 "https://a.test/b/?q=1",
   C8_normalization.2 "https://a.test/b/?q=1" "https://a.test/b#frag"
     ⟨"https://a.test/b".data, 1, '?' :: "q=1".data, 0, '#' :: "frag".data,
       by decide, by decide, by decide,
       Or.inr (Or.inl ⟨"q=1".data, rfl⟩), Or.inr (Or.inr ⟨"frag".data, rfl⟩),
       by decide, by decide⟩⟩

/-! ## Crawl-loop lemmas for dedup, determinism and depth (C2, C4, C7) -/

theorem nodup_addLinks (max_depth depth : Nat) (visited : List String) :
    ∀ (ls all_links : List String) (tv : List (String × Nat)),
      all_links.Nodup → (addLinks max_depth depth visited ls all_links tv).1.Nodup
  | [], _, _, h => h
  | _ :: ls, _, _, h =>
    nodup_addLinks max_depth depth visited ls _ _ (nodup_setInsert h)

theorem nodup_processBatch (web : Web) (extract : String → Except String (List String))
    (max_depth : Nat) :
    ∀ (batch : List (String × Nat)) (visited all_links : List String)
      (tv : List (String × Nat)) (all2 : List String) (tv2 : List (String × Nat)),
      processBatch web extract max_depth batch visited all_links tv = .ok (all2, tv2) →
      all_links.Nodup → all2.Nodup := by
  intro batch
  induction batch with
  | nil =>
    intro visited all_links tv all2 tv2 h hn
    simp only [processBatch, Except.ok.injEq, Prod.mk.injEq] at h
    rw [← h.1]
    exact hn
  | cons e rest ih =>
    intro visited all_links tv all2 tv2 h hn
    obtain ⟨url, depth⟩ := e
    rcases hf : fetch_html web url with ef | html
    · simp only [processBatch, hf] at h
      exact ih _ _ _ _ _ h hn
    · rcases hx : extract html with ee | links
      · simp only [processBatch, hf, hx] at h
        simp at h
      · simp only [processBatch, hf, hx] at h
        exact ih _ _ _ _ _ h (nodup_addLinks _ _ _ _ _ _ hn)

theorem nodup_crawlLoop (web : Web) (extract : String → Except String (List String))
    (max_depth : Nat) :
    ∀ (fuel : Nat) (tv : List (String × Nat)) (visited all_links res vis : List String),
      crawlLoop web extract max_depth fuel tv visited all_links = .ok (res, vis) →
      all_links.Nodup → res.Nodup := by
  intro fuel
  induction fuel with
  | zero =>
    intro tv visited all_links res vis h hn
    cases tv with
    | nil =>
      simp only [crawlLoop, Except.ok.injEq, Prod.mk.injEq] at h
      rw [← h.1]; exact hn
    | cons e t =>
      simp only [crawlLoop, Except.ok.injEq, Prod.mk.injEq] at h
      rw [← h.1]; exact hn
  | succ fuel ih =>
    intro tv visited all_links res vis h hn
    cases tv with
    | nil =>
      simp only [crawlLoop, Except.ok.injEq, Prod.mk.injEq] at h
      rw [← h.1]; exact hn
    | cons e t =>
      simp only [crawlLoop] at h
      split at h
      · exact ih _ _ _ _ _ h hn
      · rcases hp : processBatch web extract max_depth
            (popBatch max_depth (e :: t) visited 10).1
            (popBatch max_depth (e :: t) visited 10).2.2 all_links
            (popBatch max_depth (e :: t) visited 10).2.1 with ee | p
        · rw [hp] at h
          exact absurd h (by simp)
        · rw [hp] at h
          obtain ⟨all2, tv2⟩ := p
          exact ih _ _ _ _ _ h
            (nodup_processBatch web extract max_depth _ _ _ _ _ _ hp hn)

theorem processBatch_congr {web web' : Web}
    (hw : ∀ u, assocOpt web u = assocOpt web' u)
    (extract : String → Except String (List String)) (max_depth : Nat) :
    ∀ (batch : List (String × Nat)) (visited all_links : List String)
      (tv : List (String × Nat)),
      processBatch web extract max_depth batch visited all_links tv =
        processBatch web' extract max_depth batch visited all_links tv := by
  intro batch
  induction batch with
  | nil => intro _ _ _; rfl
  | cons e rest ih =>
    intro visited all_links tv
    obtain ⟨url, depth⟩ := e
    have hfe : fetch_html web url = fetch_html web' url := by
      unfold fetch_html
      rw [hw url]
    rcases hf : fetch_html web' url with ef | html
    · simp only [processBatch, hfe, hf]
      exact ih _ _ _
    · rcases hx : extract html with ee | links
      · simp only [processBatch, hfe, hf, hx]
      · simp only [processBatch, hfe, hf, hx]
        exact ih _ _ _

theorem crawlLoop_congr {web web' : Web}
    (hw : ∀ u, assocOpt web u = assocOpt web' u)
    (extract : String → Except String (List String)) (max_depth : Nat) :
    ∀ (fuel : Nat) (tv : List (String × Nat)) (visited all_links : List String),
      crawlLoop web extract max_depth fuel tv visited all_links =
        crawlLoop web' extract max_depth fuel tv visited all_links := by
  intro fuel
  induction fuel with
  | zero => intro tv _ _; cases tv <;> rfl
  | succ fuel ih =>
    intro tv visited all_links
    cases tv with
    | nil => rfl
    | cons e t =>
      simp only [crawlLoop]
      split
      · exact ih _ _ _
      · rw [processBatch_congr hw extract max_depth]
        rcases hp : processBatch web' extract max_depth
            (popBatch max_depth (e :: t) visited 10).1
            (popBatch max_depth (e :: t) visited 10).2.2 all_links
            (popBatch max_depth (e :: t) visited 10).2.1 with ee | ⟨all2, tv2⟩
        · simp only [hp]
        · simp only [hp]
          exact ih _ _ _

/-- C7: the data sequence of every link-discovery result is sorted
ascending (Python's string order) and duplicate-free, and the crawl is a
pure function of the link-graph: two webs that agree as URL-to-page maps
produce identical crawls (representation independence; determinism of
repeated calls is purity of the embedding). -/
theorem C7_sorted_dedup :
    (∀ sites web bL site_id,
        ((scrape_links sites web bL site_id).data).Sorted pyLe ∧
        ((scrape_links sites web bL site_id).data).Nodup) ∧
    (∀ web web' : Web, (∀ u, assocOpt web u = assocOpt web' u) →
        ∀ extract max_depth fuel tv visited all_links,
          crawlLoop web extract max_depth fuel tv visited all_links =
            crawlLoop web' extract max_depth fuel tv visited all_links) := by
  constructor
  · intro sites web bL site_id
    unfold scrape_links
    dsimp only
    repeat' split
    all_goals
      first
        | exact ⟨List.sorted_nil, List.nodup_nil⟩
        | exact ⟨sorted_pySorted _,
            nodup_pySorted
              (nodup_crawlLoop _ _ _ _ _ _ _ _ _ (by assumption) List.nodup_nil)⟩
        | exact ⟨sorted_pySorted _, nodup_pySorted (nodup_pySet _)⟩
  · intro web web' hw extract max_depth fuel tv visited all_links
    exact crawlLoop_congr hw extract max_depth fuel tv visited all_links

/-- Witness for C7: two association lists that represent the same
URL-to-page map (the second entry of the first list is shadowed) give
identical crawls. -/
theorem C7_witness :
    crawlLoop [("https://w.test", Except.ok "<a href=\"/a\">a</a>"),
               ("https://w.test", Except.ok "shadowed")]
        (fun h => DefaultExtractor.extract_links h
          (LinksConfig.toDict { startUrls := [""], pattern := "", maxDepth := 1 }
            "https://w.test"))
        1 5 [("https://w.test", 0)] [] [] =
      crawlLoop [("https://w.test", Except.ok "<a href=\"/a\">a</a>")]
        (fun h => DefaultExtractor.extract_links h
          (LinksConfig.toDict { startUrls := [""], pattern := "", maxDepth := 1 }
            "https://w.test"))
        1 5 [("https://w.test", 0)] [] [] :=
  C7_sorted_dedup.2 _ _
    (by
      intro u
      by_cases h : "https://w.test" = u <;> simp [assocOpt, h])
    _ _ _ _ _ _

theorem mem_addLinks_all (max_depth depth : Nat) (visited : List String) :
    ∀ (ls all_links : List String) (tv : List (String × Nat)) (a : String),
      a ∈ (addLinks max_depth depth visited ls all_links tv).1 ↔
        a ∈ all_links ∨ a ∈ ls := by
  intro ls
  induction ls with
  | nil => intro all tv a; simp [addLinks]
  | cons l ls ih =>
    intro all tv a
    show a ∈ (addLinks max_depth depth visited ls (setInsert l all) _).1 ↔ _
    rw [ih]
    rw [mem_setInsert]
    simp only [List.mem_cons]
    tauto

theorem processBatch_all_mono (web : Web)
    (extract : String → Except String (List String)) (max_depth : Nat) :
    ∀ (batch : List (String × Nat)) (visited all_links : List String)
      (tv : List (String × Nat)) (all2 : List String) (tv2 : List (String × Nat)),
      processBatch web extract max_depth batch visited all_links tv = .ok (all2, tv2) →
      ∀ a ∈ all_links, a ∈ all2 := by
  intro batch
  induction batch with
  | nil =>
    intro visited all tv all2 tv2 h a ha
    simp only [processBatch, Except.ok.injEq, Prod.mk.injEq] at h
    rw [← h.1]
    exact ha
  | cons e rest ih =>
    intro visited all tv all2 tv2 h a ha
    obtain ⟨url, depth⟩ := e
    rcases hf : fetch_html web url with ef | html
    · simp only [processBatch, hf] at h
      exact ih _ _ _ _ _ h a ha
    · rcases hx : extract html with ee | links
      · simp only [processBatch, hf, hx] at h
        simp at h
      · simp only [processBatch, hf, hx] at h
        exact ih _ _ _ _ _ h a
          ((mem_addLinks_all max_depth depth visited links all tv a).mpr (Or.inl ha))

/-- When the extraction function never raises on any page this web
actually serves, one batch always processes to success, keeps previously
accumulated links, and adds every link of every page in the batch whose
fetch succeeded. -/
theorem processBatch_ok_total (web : Web)
    (extract : String → Except String (List String)) (max_depth : Nat)
    (hweb : ∀ url h, fetch_html web url = .ok h → ∃ ls, extract h = .ok ls) :
    ∀ (batch : List (String × Nat)) (visited all_links : List String)
      (tv : List (String × Nat)),
      ∃ all2 tv2,
        processBatch web extract max_depth batch visited all_links tv = .ok (all2, tv2) ∧
        (∀ a ∈ all_links, a ∈ all2) ∧
        (∀ u d h ls, (u, d) ∈ batch → fetch_html web u = .ok h → extract h = .ok ls →
          ∀ l ∈ ls, l ∈ all2) := by
  intro batch
  induction batch with
  | nil =>
    intro visited all tv
    exact ⟨all, tv, rfl, fun a ha => ha, by simp⟩
  | cons e rest ih =>
    intro visited all tv
    obtain ⟨url, depth⟩ := e
    rcases hf : fetch_html web url with ef | html
    · obtain ⟨all2, tv2, hp, hmono, hiso⟩ := ih visited all tv
      refine ⟨all2, tv2, ?_, hmono, ?_⟩
      · simp only [processBatch, hf]
        exact hp
      · intro u d h ls hmem hfu hxu l hl
        rcases List.mem_cons.mp hmem with he | hmem2
        · have hu : u = url := congrArg Prod.fst he
          rw [hu, hf] at hfu
          exact absurd hfu (by simp)
        · exact hiso u d h ls hmem2 hfu hxu l hl
    · obtain ⟨ls0, hx⟩ := hweb url html hf
      obtain ⟨all2, tv2, hp, hmono, hiso⟩ :=
        ih visited (addLinks max_depth depth visited ls0 all tv).1
          (addLinks max_depth depth visited ls0 all tv).2
      refine ⟨all2, tv2, ?_, ?_, ?_⟩
      · simp only [processBatch, hf, hx]
        exact hp
      · intro a ha
        exact hmono a ((mem_addLinks_all max_depth depth visited ls0 all tv a).mpr (Or.inl ha))
      · intro u d h ls hmem hfu hxu l hl
        rcases List.mem_cons.mp hmem with he | hmem2
        · have hu : u = url := congrArg Prod.fst he
          rw [hu, hf] at hfu
          injection hfu with hfu
          subst hfu
          rw [hx] at hxu
          injection hxu with hxu
          subst hxu
          exact hmono l
            ((mem_addLinks_all max_depth depth visited ls0 all tv l).mpr (Or.inr hl))
        · exact hiso u d h ls hmem2 hfu hxu l hl

theorem crawlLoop_acc_mono (web : Web)
    (extract : String → Except String (List String)) (max_depth : Nat) :
    ∀ (fuel : Nat) (tv : List (String × Nat)) (visited all_links res vis : List String),
      crawlLoop web extract max_depth fuel tv visited all_links = .ok (res, vis) →
      ∀ a ∈ all_links, a ∈ res := by
  intro fuel
  induction fuel with
  | zero =>
    intro tv visited all res vis h a ha
    cases tv with
    | nil =>
      simp only [crawlLoop, Except.ok.injEq, Prod.mk.injEq] at h
      rw [← h.1]; exact ha
    | cons e t =>
      simp only [crawlLoop, Except.ok.injEq, Prod.mk.injEq] at h
      rw [← h.1]; exact ha
  | succ fuel ih =>
    intro tv visited all res vis h a ha
    cases tv with
    | nil =>
      simp only [crawlLoop, Except.ok.injEq, Prod.mk.injEq] at h
      rw [← h.1]; exact ha
    | cons e t =>
      simp only [crawlLoop] at h
      split at h
      · exact ih _ _ _ _ _ h a ha
      · rcases hp : processBatch web extract max_depth
            (popBatch max_depth (e :: t) visited 10).1
            (popBatch max_depth (e :: t) visited 10).2.2 all
            (popBatch max_depth (e :: t) visited 10).2.1 with ee | ⟨all2, tv2⟩
        · rw [hp] at h
          exact absurd h (by simp)
        · rw [hp] at h
          exact ih _ _ _ _ _ h a
            (processBatch_all_mono web extract max_depth _ _ _ _ _ _ hp a ha)

theorem crawlLoop_ok_total (web : Web)
    (extract : String → Except String (List String)) (max_depth : Nat)
    (hweb : ∀ url h, fetch_html web url = .ok h → ∃ ls, extract h = .ok ls) :
    ∀ (fuel : Nat) (tv : List (String × Nat)) (visited all_links : List String),
      ∃ res vis, crawlLoop web extract max_depth fuel tv visited all_links = .ok (res, vis) := by
  intro fuel
  induction fuel with
  | zero =>
    intro tv visited all
    cases tv with
    | nil => exact ⟨all, visited, rfl⟩
    | cons e t => exact ⟨all, visited, rfl⟩
  | succ fuel ih =>
    intro tv visited all
    cases tv with
    | nil => exact ⟨all, visited, rfl⟩
    | cons e t =>
      simp only [crawlLoop]
      split
      · exact ih _ _ _
      · obtain ⟨all2, tv2, hp, _, _⟩ := processBatch_ok_total web extract max_depth hweb
          (popBatch max_depth (e :: t) visited 10).1
          (popBatch max_depth (e :: t) visited 10).2.2 all
          (popBatch max_depth (e :: t) visited 10).2.1
        rw [hp]
        exact ih _ _ _

/-- C4 (amended): fetch failures are isolated.  With an extraction
function that never raises on any page this web actually serves, a batch
containing failing fetches still processes successfully, every link of
every successfully fetched page of the batch reaches the batch output,
accumulated links survive to the final crawl result, the loop never
fails, and a default-extractor fetch-mode discovery call whose served
pages all extract without raising reports `success=true`.  (The
extraction proviso is necessary: see the counterexample below.) -/
theorem C4_amended (web : Web)
    (extract : String → Except String (List String)) (max_depth : Nat)
    (hweb : ∀ url h, fetch_html web url = .ok h → ∃ ls, extract h = .ok ls) :
    (∀ batch visited all_links tv, ∃ all2 tv2,
        processBatch web extract max_depth batch visited all_links tv = .ok (all2, tv2) ∧
        (∀ a ∈ all_links, a ∈ all2) ∧
        (∀ u d h ls, (u, d) ∈ batch → fetch_html web u = .ok h → extract h = .ok ls →
            ∀ l ∈ ls, l ∈ all2)) ∧
    (∀ fuel tv visited all_links res vis,
        crawlLoop web extract max_depth fuel tv visited all_links = .ok (res, vis) →
        ∀ a ∈ all_links, a ∈ res) ∧
    (∀ fuel tv visited all_links, ∃ res vis,
        crawlLoop web extract max_depth fuel tv visited all_links = .ok (res, vis)) ∧
    (∀ sites bL site_id cfg lc, assocOpt sites site_id = some cfg →
        cfg.extractor = "default" → cfg.mode = .fetch → cfg.links = some lc →
        (∀ url h, fetch_html web url = .ok h →
            ∃ ls, defaultExtractor.extract_links h (lc.toDict cfg.baseUrl) = .ok ls) →
        (scrape_links sites web bL site_id).success = true) := by
  refine ⟨processBatch_ok_total web extract max_depth hweb,
    crawlLoop_acc_mono web extract max_depth,
    crawlLoop_ok_total web extract max_depth hweb, ?_⟩
  intro sites bL site_id cfg lc hsite hex hmode hlinks hwebd
  have hdef : assocOpt EXTRACTORS "default" = some defaultExtractor := rfl
  simp only [scrape_links, hsite, hex, hdef, hlinks, hmode]
  obtain ⟨res, vis, hcr⟩ :=
    crawlLoop_ok_total web
      (fun html => defaultExtractor.extract_links html (lc.toDict cfg.baseUrl))
      lc.maxDepth hwebd _ _ [] []
  rw [hcr]

/-- A three-seed fetch-mode site whose middle seed URL fails to fetch. -/
def batchSites : List (String × SiteConfig) :=
  [("c", { name := "C", baseUrl := "https://c.test", mode := .fetch,
           extractor := "default",
           links := some { startUrls := ["/1", "/2", "/3"], pattern := "",
                           maxDepth := 0 } })]

/-- Web for the batch witness: pages at seeds 1 and 3, nothing at seed 2
(its fetch raises). -/
def batchWeb : Web :=
  [("https://c.test/1", .ok "<a href=\"/x\">x</a>"),
   ("https://c.test/3", .ok "<a href=\"/y\">y</a>")]

/-- Over `batchWeb`, every page the web actually serves extracts
successfully with the default extractor under the batch-scenario config. -/
theorem batchWeb_extract_total :
    ∀ url h, fetch_html batchWeb url = .ok h →
      ∃ ls, defaultExtractor.extract_links h
        (LinksConfig.toDict
          { startUrls := ["/1", "/2", "/3"], pattern := "", maxDepth := 0 }
          "https://c.test") = .ok ls := by
  intro url h hf
  simp only [fetch_html, batchWeb, assocOpt] at hf
  split_ifs at hf
  all_goals
    first
      | (injection hf with hf
         subst hf
         exact ⟨_, rfl⟩)
      | exact absurd hf (by simp)

/-- Witness for C4: one of three fetches fails, the two successful pages'
links appear in the result, and the call reports success. -/
theorem C4_witness :
    (scrape_links batchSites batchWeb (fun _ _ _ => .error "nb") "c").success = true ∧
    scrape_links batchSites batchWeb (fun _ _ _ => .error "nb") "c" =
      ⟨"c", .links, true, ["https://c.test/x", "https://c.test/y"], none⟩ ∧
    fetch_html batchWeb "https://c.test/2" =
      .error "Cannot connect to host https://c.test/2" :=
  ⟨(C4_amended batchWeb
      (fun html => defaultExtractor.extract_links html
        (LinksConfig.toDict
          { startUrls := ["/1", "/2", "/3"], pattern := "", maxDepth := 0 }
          "https://c.test"))
      0 batchWeb_extract_total).2.2.2 batchSites (fun _ _ _ => .error "nb") "c" _ _
        rfl rfl rfl rfl batchWeb_extract_total,
   by decide, rfl⟩

/-- Site for the C4 counterexample: three seeds on a default fetch-mode
site. -/
def badHrefSites : List (String × SiteConfig) :=
  [("b", { name := "B", baseUrl := "https://c.test", mode := .fetch,
           extractor := "default",
           links := some { startUrls := ["/1", "/2", "/3"], pattern := "",
                           maxDepth := 0 } })]

/-- Web for the C4 counterexample: seed 2 fails to fetch, seeds 1 and 3
serve pages, but the page at seed 3 carries a malformed href on which
`urlparse` raises `ValueError("Invalid IPv6 URL")` (default.py line 67). -/
def badHrefWeb : Web :=
  [("https://c.test/1", .ok "<a href=\"/x\">x</a>"),
   ("https://c.test/3", .ok "<a href=\"http://[\">bad</a>")]

/-- C4 counterexample: exactly one of the three seed fetches fails and the
other two succeed, yet the call reports `success=false` with the
`urlparse` error and drops the successful pages' links, because the
malformed href `http://[` on the third page aborts link extraction —
refuting the unconditional claim that one fetch failure among otherwise
successful fetches still yields `success=true` with the other pages'
links in the result. -/
theorem C4_counterexample :
    fetch_html badHrefWeb "https://c.test/1" = .ok "<a href=\"/x\">x</a>" ∧
    fetch_html badHrefWeb "https://c.test/2" =
      .error "Cannot connect to host https://c.test/2" ∧
    fetch_html badHrefWeb "https://c.test/3" =
      .ok "<a href=\"http://[\">bad</a>" ∧
    scrape_links badHrefSites badHrefWeb (fun _ _ _ => .error "nb") "b" =
      ⟨"b", .links, false, [], some "Invalid IPv6 URL"⟩ :=
  ⟨rfl, rfl, rfl, by decide⟩

/-- `Reach web extract seeds u n`: URL `u` lies within `n` link-hops of a
seed in the link graph induced by the web and the extraction function. -/
inductive Reach (web : Web) (extract : String → Except String (List String))
    (seeds : List String) : String → Nat → Prop
  | seed {u : String} {n : Nat} : u ∈ seeds → Reach web extract seeds u n
  | step {u h : String} {ls : List String} {l : String} {n : Nat} :
      Reach web extract seeds u n → fetch_html web u = .ok h →
      extract h = .ok ls → l ∈ ls → Reach web extract seeds l (n + 1)

theorem Reach.mono {web : Web} {extract : String → Except String (List String)}
    {seeds : List String} {u : String} {n m : Nat}
    (hr : Reach web extract seeds u n) (hle : n ≤ m) : Reach web extract seeds u m := by
  induction hr generalizing m with
  | seed hs => exact Reach.seed hs
  | step _ hf hx hl ih =>
    cases m with
    | zero => omega
    | succ m => exact Reach.step (ih (by omega)) hf hx hl

theorem popBatch_batch_mem (max_depth : Nat) :
    ∀ (tv : List (String × Nat)) (visited : List String) (k : Nat) (e : String × Nat),
      e ∈ (popBatch max_depth tv visited k).1 → e ∈ tv
  | [], _, k, e => by simp [popBatch]
  | _ :: _, _, 0, e => by simp [popBatch]
  | (url, depth) :: rest, visited, k + 1, e => by
    unfold popBatch
    split_ifs with h
    · intro hm
      rcases List.mem_cons.mp hm with rfl | hm2
      · exact List.mem_cons_self _ _
      · exact List.mem_cons_of_mem _
          (popBatch_batch_mem max_depth rest (setInsert url visited) k e hm2)
    · intro hm
      exact List.mem_cons_of_mem _
        (popBatch_batch_mem max_depth rest visited (k + 1) e hm)

theorem popBatch_rem_mem (max_depth : Nat) :
    ∀ (tv : List (String × Nat)) (visited : List String) (k : Nat) (e : String × Nat),
      e ∈ (popBatch max_depth tv visited k).2.1 → e ∈ tv
  | [], _, k, e => by simp [popBatch]
  | _ :: _, _, 0, e => fun hm => hm
  | (url, depth) :: rest, visited, k + 1, e => by
    unfold popBatch
    split_ifs with h
    · intro hm
      exact List.mem_cons_of_mem _
        (popBatch_rem_mem max_depth rest (setInsert url visited) k e hm)
    · intro hm
      exact List.mem_cons_of_mem _
        (popBatch_rem_mem max_depth rest visited (k + 1) e hm)

theorem mem_addLinks_tv (max_depth depth : Nat) (visited : List String) :
    ∀ (ls all_links : List String) (tv : List (String × Nat)) (e : String × Nat),
      e ∈ (addLinks max_depth depth visited ls all_links tv).2 →
        e ∈ tv ∨ (e.1 ∈ ls ∧ e.2 = depth + 1 ∧ depth < max_depth ∧ e.1 ∉ visited)
  | [], _, _, e => fun h => Or.inl h
  | l :: ls, all_links, tv, e => by
    intro h
    have h2 := mem_addLinks_tv max_depth depth visited ls (setInsert l all_links) _ e h
    rcases h2 with h2 | h2
    · by_cases hc : depth < max_depth ∧ l ∉ visited
      · rw [if_pos hc] at h2
        rcases List.mem_append.mp h2 with h3 | h3
        · exact Or.inl h3
        · rcases List.mem_singleton.mp h3 with rfl
          exact Or.inr ⟨List.mem_cons_self _ _, rfl, hc.1, hc.2⟩
      · rw [if_neg hc] at h2
        exact Or.inl h2
    · exact Or.inr ⟨List.mem_cons_of_mem _ h2.1, h2.2⟩

theorem mem_processBatch_tv (web : Web)
    (extract : String → Except String (List String)) (max_depth : Nat) :
    ∀ (batch : List (String × Nat)) (visited all_links : List String)
      (tv : List (String × Nat)) (all2 : List String) (tv2 : List (String × Nat)),
      processBatch web extract max_depth batch visited all_links tv = .ok (all2, tv2) →
      ∀ e ∈ tv2, e ∈ tv ∨ ∃ u d h ls, (u, d) ∈ batch ∧ fetch_html web u = .ok h ∧
        extract h = .ok ls ∧ e.1 ∈ ls ∧ e.2 = d + 1 ∧ d < max_depth := by
  intro batch
  induction batch with
  | nil =>
    intro visited all tv all2 tv2 h e he
    simp only [processBatch, Except.ok.injEq, Prod.mk.injEq] at h
    rw [← h.2] at he
    exact Or.inl he
  | cons p rest ih =>
    intro visited all tv all2 tv2 h e he
    obtain ⟨url, depth⟩ := p
    rcases hf : fetch_html web url with ef | html
    · simp only [processBatch, hf] at h
      rcases ih _ _ _ _ _ h e he with h2 | ⟨u, d, hh, ls, hm, hrest⟩
      · exact Or.inl h2
      · exact Or.inr ⟨u, d, hh, ls, List.mem_cons_of_mem _ hm, hrest⟩
    · rcases hx : extract html with ee | links
      · simp only [processBatch, hf, hx] at h
        simp at h
      · simp only [processBatch, hf, hx] at h
        rcases ih _ _ _ _ _ h e he with h2 | ⟨u, d, hh, ls, hm, hrest⟩
        · rcases mem_addLinks_tv max_depth depth visited links all tv e h2 with h3 | h3
          · exact Or.inl h3
          · exact Or.inr ⟨url, depth, html, links, List.mem_cons_self _ _, hf, hx,
              h3.1, h3.2.1, h3.2.2.1⟩
        · exact Or.inr ⟨u, d, hh, ls, List.mem_cons_of_mem _ hm, hrest⟩

theorem mem_processBatch_all (web : Web)
    (extract : String → Except String (List String)) (max_depth : Nat) :
    ∀ (batch : List (String × Nat)) (visited all_links : List String)
      (tv : List (String × Nat)) (all2 : List String) (tv2 : List (String × Nat)),
      processBatch web extract max_depth batch visited all_links tv = .ok (all2, tv2) →
      ∀ a ∈ all2, a ∈ all_links ∨ ∃ u d h ls, (u, d) ∈ batch ∧
        fetch_html web u = .ok h ∧ extract h = .ok ls ∧ a ∈ ls := by
  intro batch
  induction batch with
  | nil =>
    intro visited all tv all2 tv2 h a ha
    simp only [processBatch, Except.ok.injEq, Prod.mk.injEq] at h
    rw [← h.1] at ha
    exact Or.inl ha
  | cons p rest ih =>
    intro visited all tv all2 tv2 h a ha
    obtain ⟨url, depth⟩ := p
    rcases hf : fetch_html web url with ef | html
    · simp only [processBatch, hf] at h
      rcases ih _ _ _ _ _ h a ha with h2 | ⟨u, d, hh, ls, hm, hrest⟩
      · exact Or.inl h2
      · exact Or.inr ⟨u, d, hh, ls, List.mem_cons_of_mem _ hm, hrest⟩
    · rcases hx : extract html with ee | links
      · simp only [processBatch, hf, hx] at h
        simp at h
      · simp only [processBatch, hf, hx] at h
        rcases ih _ _ _ _ _ h a ha with h2 | ⟨u, d, hh, ls, hm, hrest⟩
        · rcases (mem_addLinks_all max_depth depth visited links all tv a).mp h2 with h3 | h3
          · exact Or.inl h3
          · exact Or.inr ⟨url, depth, html, links, List.mem_cons_self _ _, hf, hx, h3⟩
        · exact Or.inr ⟨u, d, hh, ls, List.mem_cons_of_mem _ hm, hrest⟩

theorem addLinks_tv_at_max (max_depth : Nat) (visited : List String) :
    ∀ (ls all_links : List String) (tv : List (String × Nat)),
      (addLinks max_depth max_depth visited ls all_links tv).2 = tv
  | [], _, _ => rfl
  | l :: ls, all_links, tv => by
    unfold addLinks
    rw [if_neg (by simp)]
    exact addLinks_tv_at_max max_depth visited ls _ _

/-- Invariant run of the crawl loop: when every frontier entry at depth `d`
is reachable in `d` hops (and within the depth bound) and every
accumulated link is reachable in `max_depth + 1` hops, so is every link of
the final result. -/
theorem crawlLoop_reach (web : Web)
    (extract : String → Except String (List String)) (max_depth : Nat)
    (seeds : List String) :
    ∀ (fuel : Nat) (tv : List (String × Nat)) (visited all_links res vis : List String),
      crawlLoop web extract max_depth fuel tv visited all_links = .ok (res, vis) →
      (∀ e ∈ tv, Reach web extract seeds e.1 e.2 ∧ e.2 ≤ max_depth) →
      (∀ a ∈ all_links, Reach web extract seeds a (max_depth + 1)) →
      ∀ a ∈ res, Reach web extract seeds a (max_depth + 1) := by
  intro fuel
  induction fuel with
  | zero =>
    intro tv visited all res vis h htv hall a ha
    cases tv with
    | nil =>
      simp only [crawlLoop, Except.ok.injEq, Prod.mk.injEq] at h
      rw [← h.1] at ha
      exact hall a ha
    | cons e t =>
      simp only [crawlLoop, Except.ok.injEq, Prod.mk.injEq] at h
      rw [← h.1] at ha
      exact hall a ha
  | succ fuel ih =>
    intro tv visited all res vis h htv hall a ha
    cases tv with
    | nil =>
      simp only [crawlLoop, Except.ok.injEq, Prod.mk.injEq] at h
      rw [← h.1] at ha
      exact hall a ha
    | cons e t =>
      simp only [crawlLoop] at h
      split at h
      · exact ih _ _ _ _ _ h
          (fun e2 he2 => htv e2 (popBatch_rem_mem max_depth (e :: t) visited 10 e2 he2))
          hall a ha
      · rcases hp : processBatch web extract max_depth
            (popBatch max_depth (e :: t) visited 10).1
            (popBatch max_depth (e :: t) visited 10).2.2 all
            (popBatch max_depth (e :: t) visited 10).2.1 with ee | ⟨all2, tv2⟩
        · rw [hp] at h
          exact absurd h (by simp)
        · rw [hp] at h
          refine ih _ _ _ _ _ h ?_ ?_ a ha
          · intro e2 he2
            rcases mem_processBatch_tv web extract max_depth _ _ _ _ _ _ hp e2 he2 with
              h2 | ⟨u, d, hh, ls, hm, hfu, hxu, hmem, hdep, hlt⟩
            · exact htv e2 (popBatch_rem_mem max_depth (e :: t) visited 10 e2 h2)
            · have hud := htv (u, d) (popBatch_batch_mem max_depth (e :: t) visited 10 _ hm)
              refine ⟨?_, by omega⟩
              rw [hdep]
              exact Reach.step hud.1 hfu hxu hmem
          · intro a2 ha2
            rcases mem_processBatch_all web extract max_depth _ _ _ _ _ _ hp a2 ha2 with
              h2 | ⟨u, d, hh, ls, hm, hfu, hxu, hmem⟩
            · exact hall a2 h2
            · have hud := htv (u, d) (popBatch_batch_mem max_depth (e :: t) visited 10 _ hm)
              exact (Reach.step hud.1 hfu hxu hmem).mono (by omega)

/-- C2: boundary and depth behaviour of the fetch-mode crawl.  A frontier
entry already at `maxDepth` is still dequeued for fetching, its extracted
links all join the result while none is enqueued, enqueueing preserves the
`depth ≤ maxDepth` bound on the frontier, and every URL in the final
result of a crawl from depth-0 seeds lies within `maxDepth + 1` hops of a
seed. -/
theorem C2_depth_bound (web : Web)
    (extract : String → Except String (List String)) (max_depth : Nat)
    (seeds : List String) :
    (∀ (u : String) (rest : List (String × Nat)) (visited : List String) (k : Nat),
        u ∉ visited →
        ∃ b, (popBatch max_depth ((u, max_depth) :: rest) visited (k + 1)).1 =
          (u, max_depth) :: b) ∧
    (∀ (visited ls all_links : List String) (tv : List (String × Nat)),
        (addLinks max_depth max_depth visited ls all_links tv).2 = tv ∧
        ∀ l ∈ ls, l ∈ (addLinks max_depth max_depth visited ls all_links tv).1) ∧
    (∀ batch visited all_links tv all2 tv2,
        processBatch web extract max_depth batch visited all_links tv = .ok (all2, tv2) →
        (∀ e ∈ tv, e.2 ≤ max_depth) → ∀ e ∈ tv2, e.2 ≤ max_depth) ∧
    (∀ fuel res vis,
        crawlLoop web extract max_depth fuel
          (seeds.map (fun u => (u, 0))) [] [] = .ok (res, vis) →
        ∀ a ∈ res, Reach web extract seeds a (max_depth + 1)) := by
  refine ⟨?_, ?_, ?_, ?_⟩
  · intro u rest visited k hu
    refine ⟨(popBatch max_depth rest (setInsert u visited) k).1, ?_⟩
    rw [popBatch_cons_take ⟨hu, Nat.le_refl _⟩]
  · intro visited ls all_links tv
    exact ⟨addLinks_tv_at_max max_depth visited ls all_links tv,
      fun l hl => (mem_addLinks_all max_depth max_depth visited ls all_links tv l).mpr
        (Or.inr hl)⟩
  · intro batch visited all_links tv all2 tv2 hp htv e he
    rcases mem_processBatch_tv web extract max_depth _ _ _ _ _ _ hp e he with
      h2 | ⟨u, d, hh, ls, _, _, _, _, hdep, hlt⟩
    · exact htv e h2
    · omega
  · intro fuel res vis h
    refine crawlLoop_reach web extract max_depth seeds fuel _ _ _ _ _ h ?_ (by simp)
    intro e he
    rcases List.mem_map.mp he with ⟨u, hu, rfl⟩
    exact ⟨Reach.seed hu, Nat.zero_le _⟩

/-- Web and extraction function for the C2 witness: one seed page whose
extraction yields one link that itself fails to fetch. -/
def hopWeb : Web := [("https://a.test", .ok "seedpage")]

/-- A constant extraction function for the C2 witness. -/
def hopExtract : String → Except String (List String) :=
  fun _ => .ok ["https://a.test/x"]

/-- Witness for C2: an unvisited head entry at the depth bound is batched,
and the crawl result from the seed is reachable within 2 hops at
`maxDepth = 1`. -/
theorem C2_witness :
    (∃ b, (popBatch 1 [("https://a.test", 1)] [] 10).1 = ("https://a.test", 1) :: b) ∧
    (∀ a ∈ ["https://a.test/x"], Reach hopWeb hopExtract ["https://a.test"] a 2) :=
  ⟨(C2_depth_bound hopWeb hopExtract 1 ["https://a.test"]).1 "https://a.test" [] [] 9
      (by decide),
   (C2_depth_bound hopWeb hopExtract 1 ["https://a.test"]).2.2.2 5
      ["https://a.test/x"] ["https://a.test", "https://a.test/x"] rfl⟩

/-! ## What the extractor normalizes and what it does not (claim C3) -/

/-- A string is a `_clean_url` fixed point exactly when it carries no query
delimiter, no fragment delimiter and no trailing slash. -/
theorem clean_url_eq_self {s : String} (hq : '?' ∉ s.data) (hh : '#' ∉ s.data)
    (hl : s.data.getLast? ≠ some '/') : clean_url s = s := by
  unfold clean_url
  rw [cleanList_eq_self hq hh hl]

theorem clean_url_fixed_no_q {s : String} (h : clean_url s = s) : '?' ∉ s.data := by
  have h2 : cleanList s.data = s.data := congrArg String.data h
  rw [← h2]
  exact not_mem_cleanList_q s.data

theorem clean_url_fixed_no_h {s : String} (h : clean_url s = s) : '#' ∉ s.data := by
  have h2 : cleanList s.data = s.data := congrArg String.data h
  rw [← h2]
  exact not_mem_cleanList_h s.data

theorem clean_url_fixed_last {s : String} (h : clean_url s = s) :
    s.data.getLast? ≠ some '/' := by
  have h2 : cleanList s.data = s.data := congrArg String.data h
  rw [← h2]
  exact getLast?_dropTrailingSlashes_ne _

theorem clean_url_clean_fixed (u : String) : clean_url (clean_url u) = clean_url u := by
  unfold clean_url
  exact congrArg String.mk (cleanList_idem u.data)



theorem char_toNat_ofNat_lt {n : Nat} (h : n < 55296) : (Char.ofNat n).toNat = n := by
  unfold Char.ofNat
  rw [dif_pos (Or.inl h)]
  rfl

theorem scheme_chars_toLower {c : Char} (h : scheme_chars c = true) :
    Char.toLower c ≠ '?' ∧ Char.toLower c ≠ '#' := by
  by_cases hc : c.toNat ≥ 65 ∧ c.toNat ≤ 90
  · have hl : Char.toLower c = Char.ofNat (c.toNat + 32) := by
      unfold Char.toLower
      rw [if_pos hc]
    rw [hl]
    constructor
    · intro heq
      have h2 := congrArg Char.toNat heq
      rw [char_toNat_ofNat_lt (by omega)] at h2
      have h3 : ('?' : Char).toNat = 63 := rfl
      omega
    · intro heq
      have h2 := congrArg Char.toNat heq
      rw [char_toNat_ofNat_lt (by omega)] at h2
      have h3 : ('#' : Char).toNat = 35 := rfl
      omega
  · have hl : Char.toLower c = c := by
      unfold Char.toLower
      rw [if_neg hc]
    rw [hl]
    constructor
    · intro heq
      rw [heq] at h
      exact absurd h (by decide)
    · intro heq
      rw [heq] at h
      exact absurd h (by decide)

/-- A recognized scheme consists of lowercased scheme characters (hence no
query or fragment delimiters), and the remainder is part of the input. -/
theorem splitSchemeM_some {l sch rest : List Char}
    (h : splitSchemeM l = some (sch, rest)) :
    (∀ a ∈ sch, a ≠ '?' ∧ a ≠ '#') ∧ (∀ a ∈ rest, a ∈ l) := by
  simp only [splitSchemeM] at h
  split_ifs at h with hc
  · injection h with h
    rw [Prod.mk.injEq] at h
    obtain ⟨h1, h2⟩ := h
    constructor
    · intro a ha
      rw [← h1] at ha
      rcases List.mem_map.mp ha with ⟨c, hc2, rfl⟩
      have hcs : scheme_chars c = true := by
        have h4 := hc.2.2.2
        rw [List.all_eq_true] at h4
        exact h4 c hc2
      exact scheme_chars_toLower hcs
    · intro a ha
      rw [← h2] at ha
      exact List.mem_of_mem_drop ha

theorem splitFrag_fst_no (l : List Char) : '#' ∉ (splitFrag l).1 := by
  unfold splitFrag
  split_ifs with h
  · intro hm
    have h2 := List.mem_takeWhile_imp hm
    simp at h2
  · exact h

theorem splitFrag_fst_sub (l : List Char) : ∀ a ∈ (splitFrag l).1, a ∈ l := by
  unfold splitFrag
  split_ifs with h
  · exact fun a ha => (List.takeWhile_sublist _).subset ha
  · exact fun a ha => ha

theorem splitFrag_no (l : List Char) (h : '#' ∉ l) : splitFrag l = (l, []) := by
  unfold splitFrag
  rw [if_neg h]

theorem splitQuery_fst_no (l : List Char) : '?' ∉ (splitQuery l).1 := by
  unfold splitQuery
  split_ifs with h
  · intro hm
    have h2 := List.mem_takeWhile_imp hm
    simp at h2
  · exact h

theorem splitQuery_fst_sub (l : List Char) : ∀ a ∈ (splitQuery l).1, a ∈ l := by
  unfold splitQuery
  split_ifs with h
  · exact fun a ha => (List.takeWhile_sublist _).subset ha
  · exact fun a ha => ha

theorem splitQuery_no (l : List Char) (h : '?' ∉ l) : splitQuery l = (l, []) := by
  unfold splitQuery
  rw [if_neg h]

/-- On success, the netloc holds no `'/'`, `'?'` or `'#'`, and the
remainder is part of the input. -/
theorem splitNetloc_ok {l nl rest : List Char}
    (h : splitNetloc l = .ok (nl, rest)) :
    (∀ a ∈ nl, a ≠ '/' ∧ a ≠ '?' ∧ a ≠ '#') ∧ (∀ a ∈ rest, a ∈ l) := by
  have hid : ∀ a ∈ ([] : List Char), a ≠ '/' ∧ a ≠ '?' ∧ a ≠ '#' := by simp
  rcases l with _ | ⟨c1, l2⟩
  · injection h with h
    rw [Prod.mk.injEq] at h
    obtain ⟨rfl, rfl⟩ := h
    exact ⟨hid, by simp⟩
  · rcases l2 with _ | ⟨c2, r2⟩
    · injection h with h
      rw [Prod.mk.injEq] at h
      obtain ⟨rfl, rfl⟩ := h
      exact ⟨hid, fun a ha => ha⟩
    · simp only [splitNetloc] at h
      split_ifs at h with h1 h2
      · injection h with h
        rw [Prod.mk.injEq] at h
        obtain ⟨rfl, rfl⟩ := h
        constructor
        · intro a ha
          have h3 := List.mem_takeWhile_imp ha
          simp only [netlocChar, Bool.not_eq_true', Bool.or_eq_false_iff,
            beq_eq_false_iff_ne] at h3
          exact ⟨h3.1.1, h3.1.2, h3.2⟩
        · intro a ha
          have h3 := List.mem_of_mem_drop ha
          exact List.mem_cons_of_mem _ (List.mem_cons_of_mem _ h3)
      · injection h with h
        rw [Prod.mk.injEq] at h
        obtain ⟨rfl, rfl⟩ := h
        exact ⟨hid, fun a ha => ha⟩

theorem urlsplitCore_ok_parts {sch rest0 : List Char} {s : SplitResult}
    (h : urlsplitCore sch rest0 = .ok s) :
    s.scheme = sch ∧
    (∀ a ∈ s.netloc, a ≠ '/' ∧ a ≠ '?' ∧ a ≠ '#') ∧
    '?' ∉ s.path ∧ '#' ∉ s.path ∧
    ('?' ∉ rest0 → s.query = []) ∧
    ('#' ∉ rest0 → s.fragment = []) := by
  unfold urlsplitCore at h
  rcases hn : splitNetloc rest0 with e | ⟨netloc, rest⟩
  · rw [hn] at h
    exact absurd h (by simp)
  · rw [hn] at h
    injection h with h
    subst h
    obtain ⟨hnl, hrsub⟩ := splitNetloc_ok hn
    refine ⟨rfl, hnl, splitQuery_fst_no _, ?_, ?_, ?_⟩
    · intro hm
      exact splitFrag_fst_no rest (splitQuery_fst_sub _ _ hm)
    · intro hq
      have hq2 : '?' ∉ (splitFrag rest).1 :=
        fun hm => hq (hrsub _ (splitFrag_fst_sub _ _ hm))
      show (splitQuery (splitFrag rest).1).2 = []
      rw [splitQuery_no _ hq2]
    · intro hf
      have hf2 : '#' ∉ rest := fun hm => hf (hrsub _ hm)
      show (splitFrag rest).2 = []
      rw [splitFrag_no _ hf2]

theorem urlsplitM_ok_parts {u : String} {s0 : List Char} {s : SplitResult}
    (hs0 : ∀ a ∈ s0, a ≠ '?' ∧ a ≠ '#')
    (h : urlsplitM u s0 = .ok s) :
    (∀ a ∈ s.scheme, a ≠ '?' ∧ a ≠ '#') ∧
    (∀ a ∈ s.netloc, a ≠ '/' ∧ a ≠ '?' ∧ a ≠ '#') ∧
    '?' ∉ s.path ∧ '#' ∉ s.path ∧
    ('?' ∉ u.data → s.query = []) ∧
    ('#' ∉ u.data → s.fragment = []) := by
  unfold urlsplitM at h
  rcases hsp : splitSchemeM u.data with _ | p
  · rw [hsp] at h
    obtain ⟨hsch, hnl, hpq, hph, hq, hf⟩ := urlsplitCore_ok_parts h
    exact ⟨fun a ha => hs0 a (hsch ▸ ha), hnl, hpq, hph, hq, hf⟩
  · rw [hsp] at h
    have hsp2 : splitSchemeM u.data = some (p.1, p.2) := by rw [hsp]
    obtain ⟨hps, hpr⟩ := splitSchemeM_some hsp2
    obtain ⟨hsch, hnl, hpq, hph, hq, hf⟩ := urlsplitCore_ok_parts h
    exact ⟨fun a ha => hps a (hsch ▸ ha), hnl, hpq, hph,
      fun hu => hq fun hm => hu (hpr _ hm),
      fun hu => hf fun hm => hu (hpr _ hm)⟩

theorem splitParams_sub (l : List Char) :
    (∀ a ∈ (splitParams l).1, a ∈ l) ∧ (∀ a ∈ (splitParams l).2, a ∈ l) := by
  simp only [splitParams]
  split_ifs with h1 h2
  · constructor
    · intro a ha
      rcases List.mem_append.mp ha with h3 | h3
      · rw [List.mem_reverse] at h3
        have h4 := (List.dropWhile_sublist _).subset h3
        rw [List.mem_reverse] at h4
        exact h4
      · exact List.mem_of_mem_drop ((List.takeWhile_sublist _).subset h3)
    · intro a ha
      have h3 := (List.dropWhile_sublist _).subset (List.mem_of_mem_drop ha)
      exact List.mem_of_mem_drop h3
  · exact ⟨fun a ha => ha, by simp⟩
  · constructor
    · intro a ha
      exact (List.takeWhile_sublist _).subset ha
    · intro a ha
      exact (List.dropWhile_sublist _).subset (List.mem_of_mem_drop ha)

theorem urlparseM_ok_parts {u : String} {s0 : List Char} {p : ParseResult}
    (hs0 : ∀ a ∈ s0, a ≠ '?' ∧ a ≠ '#')
    (h : urlparseM u s0 = .ok p) :
    (∀ a ∈ p.scheme, a ≠ '?' ∧ a ≠ '#') ∧
    (∀ a ∈ p.netloc, a ≠ '/' ∧ a ≠ '?' ∧ a ≠ '#') ∧
    ('?' ∉ p.path ∧ '#' ∉ p.path) ∧
    ('?' ∉ p.params ∧ '#' ∉ p.params) ∧
    ('?' ∉ u.data → p.query = []) ∧
    ('#' ∉ u.data → p.fragment = []) := by
  rcases hs : urlsplitM u s0 with e | s
  · simp only [urlparseM, hs] at h
    exact absurd h (by simp)
  · simp only [urlparseM, hs] at h
    obtain ⟨hsch, hnl, hpq, hph, hq, hf⟩ := urlsplitM_ok_parts hs0 hs
    obtain ⟨hp1, hp2⟩ := splitParams_sub s.path
    split_ifs at h with hc
    · injection h with h
      subst h
      exact ⟨hsch, hnl,
        ⟨fun hm => hpq (hp1 _ hm), fun hm => hph (hp1 _ hm)⟩,
        ⟨fun hm => hpq (hp2 _ hm), fun hm => hph (hp2 _ hm)⟩,
        hq, hf⟩
    · injection h with h
      subst h
      exact ⟨hsch, hnl, ⟨hpq, hph⟩, ⟨by simp, by simp⟩, hq, hf⟩

/-- Every character of an `urlunsplit` reassembly with empty query and
fragment comes from a component or is a `':'` or `'/'` separator. -/
theorem mem_urlunsplit_cases {scheme netloc path : List Char} {a : Char}
    (ha : a ∈ urlunsplitM scheme netloc path [] []) :
    a ∈ scheme ∨ a ∈ netloc ∨ a ∈ path ∨ a = ':' ∨ a = '/' := by
  simp only [urlunsplitM] at ha
  split_ifs at ha with h1 h2 h3 h4 <;>
    first
      | exact absurd rfl h1
      | tauto
      | (simp only [List.mem_append, List.mem_cons] at ha; tauto)

theorem urlunparseM_no_qf {p : ParseResult}
    (hs : ∀ a ∈ p.scheme, a ≠ '?' ∧ a ≠ '#')
    (hn : ∀ a ∈ p.netloc, a ≠ '?' ∧ a ≠ '#')
    (hp : ∀ a ∈ p.path, a ≠ '?' ∧ a ≠ '#')
    (hpar : ∀ a ∈ p.params, a ≠ '?' ∧ a ≠ '#')
    (hq : p.query = []) (hf : p.fragment = []) :
    ∀ a ∈ urlunparseM p, a ≠ '?' ∧ a ≠ '#' := by
  intro a ha
  unfold urlunparseM at ha
  rw [hq, hf] at ha
  rcases mem_urlunsplit_cases ha with h | h | h | h | h
  · exact hs a h
  · exact hn a h
  · split_ifs at h with hc
    · rcases List.mem_append.mp h with h2 | h2
      · exact hp a h2
      · rcases List.mem_cons.mp h2 with rfl | h3
        · exact ⟨by decide, by decide⟩
        · exact hpar a h3
    · exact hp a h
  · subst h
    exact ⟨by decide, by decide⟩
  · subst h
    exact ⟨by decide, by decide⟩

theorem mem_splitSlash : ∀ {l s : List Char} {a : Char},
    s ∈ splitSlash l → a ∈ s → a ∈ l := by
  intro l
  induction l with
  | nil =>
    intro s a hs ha
    simp only [splitSlash, List.mem_singleton] at hs
    subst hs
    simp at ha
  | cons c t ih =>
    intro s a hs ha
    simp only [splitSlash] at hs
    split_ifs at hs with hc
    · rcases List.mem_cons.mp hs with rfl | h2
      · simp at ha
      · exact List.mem_cons_of_mem _ (ih h2 ha)
    · rcases h3 : splitSlash t with _ | ⟨s0, ss⟩
      · rw [h3] at hs
        simp only [List.mem_singleton] at hs
        subst hs
        simp only [List.mem_singleton] at ha
        subst ha
        exact List.mem_cons_self _ _
      · rw [h3] at hs
        rcases List.mem_cons.mp hs with rfl | h2
        · rcases List.mem_cons.mp ha with rfl | h4
          · exact List.mem_cons_self _ _
          · refine List.mem_cons_of_mem _ (ih ?_ h4)
            rw [h3]
            exact List.mem_cons_self _ _
        · refine List.mem_cons_of_mem _ (ih ?_ ha)
          rw [h3]
          exact List.mem_cons_of_mem _ h2

theorem mem_joinSlash : ∀ {ss : List (List Char)} {a : Char},
    a ∈ joinSlash ss → (∃ s ∈ ss, a ∈ s) ∨ a = '/' := by
  intro ss
  induction ss with
  | nil =>
    intro a ha
    simp [joinSlash] at ha
  | cons s rest ih =>
    intro a ha
    rcases rest with _ | ⟨s2, r2⟩
    · exact Or.inl ⟨s, List.mem_cons_self _ _, ha⟩
    · simp only [joinSlash] at ha
      rcases List.mem_append.mp ha with h | h
      · exact Or.inl ⟨s, List.mem_cons_self _ _, h⟩
      · rcases List.mem_cons.mp h with rfl | h2
        · exact Or.inr rfl
        · rcases ih h2 with ⟨s3, hs3, ha3⟩ | h3
          · exact Or.inl ⟨s3, List.mem_cons_of_mem _ hs3, ha3⟩
          · exact Or.inr h3

theorem mem_of_getLast?_eq {α : Type} {l : List α} {a : α}
    (h : l.getLast? = some a) : a ∈ l := by
  rcases l.eq_nil_or_concat with rfl | ⟨l2, b, rfl⟩
  · simp at h
  · rw [List.concat_eq_append] at h ⊢
    rw [List.getLast?_concat] at h
    injection h with h
    subst h
    simp

theorem mem_filterMiddle : ∀ {segs : List (List Char)} {s : List Char},
    s ∈ filterMiddle segs → s ∈ segs := by
  intro segs s h
  rcases segs with _ | ⟨f, rest⟩
  · simp [filterMiddle] at h
  · rcases rest with _ | ⟨g, rest2⟩
    · simpa [filterMiddle] using h
    · simp only [filterMiddle] at h
      rcases List.mem_cons.mp h with rfl | h2
      · exact List.mem_cons_self _ _
      · rcases List.mem_append.mp h2 with h3 | h3
        · exact List.mem_cons_of_mem _
            (List.dropLast_subset _ (List.mem_of_mem_filter h3))
        · rcases hl : (g :: rest2).getLast? with _ | l2
          · rw [hl] at h3
            simp at h3
          · rw [hl] at h3
            simp only [List.mem_singleton] at h3
            subst h3
            exact List.mem_cons_of_mem _ (mem_of_getLast?_eq hl)

theorem mem_resolveSegs : ∀ {segs acc : List (List Char)} {s : List Char},
    s ∈ resolveSegs acc segs → s ∈ acc ∨ s ∈ segs := by
  intro segs
  induction segs with
  | nil =>
    intro acc s h
    exact Or.inl h
  | cons seg rest ih =>
    intro acc s h
    simp only [resolveSegs] at h
    split_ifs at h with h1 h2
    · rcases ih h with h3 | h3
      · exact Or.inl (List.dropLast_subset _ h3)
      · exact Or.inr (List.mem_cons_of_mem _ h3)
    · rcases ih h with h3 | h3
      · exact Or.inl h3
      · exact Or.inr (List.mem_cons_of_mem _ h3)
    · rcases ih h with h3 | h3
      · rcases List.mem_append.mp h3 with h4 | h4
        · exact Or.inl h4
        · simp only [List.mem_singleton] at h4
          subst h4
          exact Or.inr (List.mem_cons_self _ _)
      · exact Or.inr (List.mem_cons_of_mem _ h3)

theorem mem_mergeSegments {bpath rpath : List Char} {s : List Char} {a : Char}
    (hs : s ∈ mergeSegments bpath rpath) (ha : a ∈ s) :
    a ∈ bpath ∨ a ∈ rpath := by
  simp only [mergeSegments] at hs
  split_ifs at hs with h1 h2
  · exact Or.inr (mem_splitSlash hs ha)
  · rcases List.mem_append.mp (mem_filterMiddle hs) with h3 | h3
    · exact Or.inl (mem_splitSlash (List.dropLast_subset _ h3) ha)
    · exact Or.inr (mem_splitSlash h3 ha)
  · rcases List.mem_append.mp (mem_filterMiddle hs) with h3 | h3
    · exact Or.inl (mem_splitSlash h3 ha)
    · exact Or.inr (mem_splitSlash h3 ha)

theorem mem_mergePaths {bpath rpath : List Char} {a : Char}
    (ha : a ∈ mergePaths bpath rpath) : a ∈ bpath ∨ a ∈ rpath ∨ a = '/' := by
  simp only [mergePaths] at ha
  rcases mem_joinSlash ha with ⟨s, hs, has⟩ | h
  · have hs2 : s ∈ resolveSegs [] (mergeSegments bpath rpath) ∨
        s = ([] : List Char) := by
      split_ifs at hs with hc
      · rcases List.mem_append.mp hs with h3 | h3
        · exact Or.inl h3
        · right
          simpa using h3
      · exact Or.inl hs
    rcases hs2 with hs3 | rfl
    · rcases mem_resolveSegs hs3 with h4 | h4
      · simp at h4
      · rcases mem_mergeSegments h4 has with h5 | h5
        · exact Or.inl h5
        · exact Or.inr (Or.inl h5)
    · simp at has
  · exact Or.inr (Or.inr h)

/-- A successful `urljoin` of two query-free, fragment-free URLs is itself
query-free and fragment-free. -/
theorem urljoinM_ok_no_qf {base url out : String}
    (hbq : '?' ∉ base.data) (hbh : '#' ∉ base.data)
    (huq : '?' ∉ url.data) (huh : '#' ∉ url.data)
    (h : urljoinM base url = .ok out) :
    '?' ∉ out.data ∧ '#' ∉ out.data := by
  unfold urljoinM at h
  split_ifs at h with h0 h1
  · injection h with h
    subst h
    exact ⟨huq, huh⟩
  · injection h with h
    subst h
    exact ⟨hbq, hbh⟩
  · rcases hpb : urlparseM base [] with e | b
    · simp only [hpb] at h
      exact absurd h (by simp)
    · simp only [hpb] at h
      rcases hpu : urlparseM url b.scheme with e | r
      · simp only [hpu] at h
        exact absurd h (by simp)
      · simp only [hpu] at h
        obtain ⟨hbs, hbn, hbp2, hbpar, hbq2, hbf2⟩ :=
          urlparseM_ok_parts (by simp) hpb
        obtain ⟨hrs, hrn, hrp2, hrpar, hrq2, hrf2⟩ :=
          urlparseM_ok_parts hbs hpu
        have hrq := hrq2 huq
        have hrf := hrf2 huh
        have hnet : ∀ a ∈ (if r.scheme ∈ uses_netloc then b.netloc else r.netloc),
            a ≠ '?' ∧ a ≠ '#' := by
          split_ifs with hc
          · exact fun a ha => ⟨(hbn a ha).2.1, (hbn a ha).2.2⟩
          · exact fun a ha => ⟨(hrn a ha).2.1, (hrn a ha).2.2⟩
        by_cases h2 : r.scheme ≠ b.scheme ∨ r.scheme ∉ uses_relative
        · rw [if_pos h2] at h
          injection h with h
          subst h
          exact ⟨huq, huh⟩
        · rw [if_neg h2] at h
          by_cases h3 : r.scheme ∈ uses_netloc ∧ r.netloc ≠ []
          · rw [if_pos h3] at h
            injection h with h
            subst h
            have hall := urlunparseM_no_qf hrs
              (fun a ha => ⟨(hrn a ha).2.1, (hrn a ha).2.2⟩)
              (fun a ha => ⟨fun he => hrp2.1 (he ▸ ha),
                fun he => hrp2.2 (he ▸ ha)⟩)
              (fun a ha => ⟨fun he => hrpar.1 (he ▸ ha),
                fun he => hrpar.2 (he ▸ ha)⟩)
              hrq hrf
            exact ⟨fun hm => (hall _ hm).1 rfl, fun hm => (hall _ hm).2 rfl⟩
          · rw [if_neg h3] at h
            by_cases h4 : r.path = [] ∧ r.params = []
            · rw [if_pos h4] at h
              injection h with h
              subst h
              have hq3 : (if r.query = [] then b.query else r.query) = [] := by
                rw [if_pos hrq]
                exact hbq2 hbq
              have hall := urlunparseM_no_qf
                (p := ⟨r.scheme,
                  (if r.scheme ∈ uses_netloc then b.netloc else r.netloc),
                  b.path, b.params, (if r.query = [] then b.query else r.query),
                  r.fragment⟩)
                hrs hnet
                (fun a ha => ⟨fun he => hbp2.1 (he ▸ ha),
                  fun he => hbp2.2 (he ▸ ha)⟩)
                (fun a ha => ⟨fun he => hbpar.1 (he ▸ ha),
                  fun he => hbpar.2 (he ▸ ha)⟩)
                hq3 hrf
              exact ⟨fun hm => (hall _ hm).1 rfl, fun hm => (hall _ hm).2 rfl⟩
            · rw [if_neg h4] at h
              injection h with h
              subst h
              have hpath : ∀ a ∈ (if mergePaths b.path r.path = [] then ['/']
                  else mergePaths b.path r.path), a ≠ '?' ∧ a ≠ '#' := by
                split_ifs with hc
                · intro a ha
                  simp only [List.mem_singleton] at ha
                  subst ha
                  exact ⟨by decide, by decide⟩
                · intro a ha
                  rcases mem_mergePaths ha with h5 | h5 | h5
                  · exact ⟨fun he => hbp2.1 (he ▸ h5), fun he => hbp2.2 (he ▸ h5)⟩
                  · exact ⟨fun he => hrp2.1 (he ▸ h5), fun he => hrp2.2 (he ▸ h5)⟩
                  · subst h5
                    exact ⟨by decide, by decide⟩
              have hall := urlunparseM_no_qf
                (p := ⟨r.scheme,
                  (if r.scheme ∈ uses_netloc then b.netloc else r.netloc),
                  (if mergePaths b.path r.path = [] then ['/']
                    else mergePaths b.path r.path), r.params, r.query, r.fragment⟩)
                hrs hnet hpath
                (fun a ha => ⟨fun he => hrpar.1 (he ▸ ha),
                  fun he => hrpar.2 (he ▸ ha)⟩)
                hrq hrf
              exact ⟨fun hm => (hall _ hm).1 rfl, fun hm => (hall _ hm).2 rfl⟩

/-- A successful resolution step on a cleaned link yields a URL without
query or fragment delimiters, provided the base URL carries none. -/
theorem resolveLink_ok_no_qf {base link out : String}
    (hbq : '?' ∉ base.data) (hbh : '#' ∉ base.data)
    (hlq : '?' ∉ link.data) (hlh : '#' ∉ link.data)
    (h : resolveLink base link = .ok out) :
    '?' ∉ out.data ∧ '#' ∉ out.data := by
  unfold resolveLink at h
  split_ifs at h with h1 h2
  · rcases hpb : urlparseM base [] with e | p
    · rw [hpb] at h
      exact absurd h (by simp)
    · rw [hpb] at h
      injection h with h
      subst h
      obtain ⟨hs, hn, _, _, _, _⟩ := urlparseM_ok_parts (by simp) hpb
      have hall : ∀ a ∈ p.scheme ++ ':' :: '/' :: '/' :: (p.netloc ++ link.data),
          a ≠ '?' ∧ a ≠ '#' := by
        intro a ha
        rcases List.mem_append.mp ha with h3 | h3
        · exact hs a h3
        · rcases List.mem_cons.mp h3 with rfl | h3
          · exact ⟨by decide, by decide⟩
          · rcases List.mem_cons.mp h3 with rfl | h3
            · exact ⟨by decide, by decide⟩
            · rcases List.mem_cons.mp h3 with rfl | h3
              · exact ⟨by decide, by decide⟩
              · rcases List.mem_append.mp h3 with h4 | h4
                · exact ⟨(hn a h4).2.1, (hn a h4).2.2⟩
                · exact ⟨fun he => hlq (he ▸ h4), fun he => hlh (he ▸ h4)⟩
      exact ⟨fun hm => (hall _ hm).1 rfl, fun hm => (hall _ hm).2 rfl⟩
  · exact urljoinM_ok_no_qf hbq hbh hlq hlh h
  · injection h with h
    subst h
    exact ⟨hlq, hlh⟩

/-- Every link a successful `collectLinks` run accumulates is free of
query and fragment delimiters, provided the base URL and the incoming
accumulator are. -/
theorem mem_collectLinks_no_qf {base_url : String} (pattern : String)
    (hbq : '?' ∉ base_url.data) (hbh : '#' ∉ base_url.data) :
    ∀ (hrefs : List (List Char)) (acc res : List String),
      collectLinks base_url pattern hrefs acc = .ok res →
      (∀ l ∈ acc, '?' ∉ l.data ∧ '#' ∉ l.data) →
      ∀ l ∈ res, '?' ∉ l.data ∧ '#' ∉ l.data
  | [], acc, res => by
    intro h hacc
    simp only [collectLinks] at h
    injection h with h
    subst h
    exact hacc
  | h0 :: t, acc, res => by
    intro h hacc
    rcases hr : resolveLink base_url (clean_url (String.mk h0)) with e | link
    · simp only [collectLinks, hr] at h
      exact absurd h (by simp)
    · simp only [collectLinks, hr] at h
      have hlink : '?' ∉ link.data ∧ '#' ∉ link.data :=
        resolveLink_ok_no_qf hbq hbh (not_mem_cleanList_q _)
          (not_mem_cleanList_h _) hr
      split_ifs at h with hc
      · exact mem_collectLinks_no_qf pattern hbq hbh t acc res h hacc
      · rcases hnl : netlocOfE link with e2 | nl
        · rw [hnl] at h
          exact absurd h (by simp)
        · rw [hnl] at h
          rcases hnb : netlocOfE base_url with e3 | nb
          · rw [hnb] at h
            exact absurd h (by simp)
          · rw [hnb] at h
            refine mem_collectLinks_no_qf pattern hbq hbh t _ res h ?_
            intro l hl
            split_ifs at hl with he
            · rcases mem_setInsert.mp hl with rfl | h2
              · exact hlink
              · exact hacc l h2
            · exact hacc l hl

/-- Every link a successful fetch-mode HTML extraction returns is free of
query and fragment delimiters, provided the base URL is. -/
theorem extract_links_no_qf {base : String}
    (hbq : '?' ∉ base.data) (hbh : '#' ∉ base.data) (html pattern : String)
    {res : List String} (h : extract_links_from_html html base pattern = .ok res) :
    ∀ l ∈ res, '?' ∉ l.data ∧ '#' ∉ l.data := by
  unfold extract_links_from_html at h
  rcases hc : collectLinks base pattern (extractHrefs html.data) [] with e | links
  · rw [hc] at h
    exact absurd h (by simp)
  · rw [hc] at h
    injection h with h
    subst h
    intro l hl
    exact mem_collectLinks_no_qf pattern hbq hbh _ _ _ hc (by simp) l
      (mem_pySorted.mp hl)

/-- `popBatch` inserts dequeued frontier URLs into the visited set exactly
as they stand on the frontier (no normalization is applied there). -/
theorem popBatch_visited_append (max_depth : Nat) :
    ∀ (tv : List (String × Nat)) (visited : List String) (k : Nat),
      ∃ us, (popBatch max_depth tv visited k).2.2 = visited ++ us ∧
        ∀ u ∈ us, u ∈ tv.map Prod.fst
  | [], visited, k => ⟨[], by simp [popBatch], by simp⟩
  | (_ :: _), visited, 0 => ⟨[], by simp [popBatch], by simp⟩
  | (url, depth) :: rest, visited, k + 1 => by
    by_cases h : url ∉ visited ∧ depth ≤ max_depth
    · obtain ⟨us, hv, hm⟩ :=
        popBatch_visited_append max_depth rest (setInsert url visited) k
      refine ⟨url :: us, ?_, ?_⟩
      · rw [popBatch_cons_take h, hv]
        unfold setInsert
        rw [if_neg h.1, List.append_assoc]
        rfl
      · intro u hu
        rcases List.mem_cons.mp hu with rfl | hu2
        · simp
        · simp only [List.map_cons, List.mem_cons]
          exact Or.inr (hm u hu2)
    · obtain ⟨us, hv, hm⟩ := popBatch_visited_append max_depth rest visited (k + 1)
      refine ⟨us, ?_, ?_⟩
      · unfold popBatch
        rw [if_neg h]
        exact hv
      · intro u hu
        simp only [List.map_cons, List.mem_cons]
        exact Or.inr (hm u hu)

/-- Web for the C3 counterexample: the seed path carries a trailing slash;
the page links to the same resource without it. -/
def trailWeb : Web :=
  [("https://s.test/a/", .ok "<a href=\"/a\">self</a>"),
   ("https://s.test/a", .ok "<a href=\"/a\">self</a>")]

/-- Extraction function of the C3 counterexample crawl: the default
extractor with base URL `https://s.test` and no pattern. -/
def trailExtract : String → Except String (List String) :=
  fun h => DefaultExtractor.extract_links h
    (LinksConfig.toDict { startUrls := ["/a/"], pattern := "", maxDepth := 1 }
      "https://s.test")

/-- The visited set of a finished crawl. -/
def crawlVisitedOf (r : Except String (List String × List String)) : List String :=
  match r with
  | .ok p => p.2
  | .error _ => []

/-- C3 counterexample: in the crawl seeded with `https://s.test/a/` whose
page links to `/a`, the visited set ends up holding both
`https://s.test/a/` (the seed, inserted unnormalized) and
`https://s.test/a`, although both address the same resource (equal
normal forms) — the page is dequeued and fetched twice, refuting the claim
that every URL entering the visited set is normalized first and that such
URLs collapse to one entry.  Moreover even discovered links are not always
trailing-slash-free: a dot-segment href resolves through `urljoin` to a
slash-terminated URL that the extractor emits unnormalized. -/
theorem C3_counterexample :
    "https://s.test/a/" ∈ crawlVisitedOf (crawlLoop trailWeb trailExtract 1
      (fuelFor trailWeb trailExtract ["https://s.test/a/"])
      [("https://s.test/a/", 0)] [] []) ∧
    "https://s.test/a" ∈ crawlVisitedOf (crawlLoop trailWeb trailExtract 1
      (fuelFor trailWeb trailExtract ["https://s.test/a/"])
      [("https://s.test/a/", 0)] [] []) ∧
    clean_url "https://s.test/a/" = clean_url "https://s.test/a" ∧
    clean_url "https://s.test/a/" ≠ "https://s.test/a/" ∧
    extract_links_from_html "<a href=\".\">x</a>" "https://s.test" "" =
      .ok ["https://s.test/"] ∧
    clean_url "https://s.test/" ≠ "https://s.test/" :=
  ⟨by decide, by decide, by decide, by decide, rfl, by decide⟩

/-- C3 (amended): during fetch-mode link discovery with a normalized base
URL, every *discovered* link is free of query and fragment delimiters
(the extractor strips them before resolution and resolution cannot
reintroduce them); but trailing-slash removal does not survive resolution
(see the counterexample), and *seed* URLs enter the visited set verbatim
as frontier URLs, with no normalization in the crawl loop itself. -/
theorem C3_amended (base : String) (hb : clean_url base = base) :
    (∀ html pattern res l, extract_links_from_html html base pattern = .ok res →
        l ∈ res → '?' ∉ l.data ∧ '#' ∉ l.data) ∧
    (∀ max_depth tv visited k, ∃ us,
        (popBatch max_depth tv visited k).2.2 = visited ++ us ∧
        ∀ u ∈ us, u ∈ tv.map Prod.fst) :=
  ⟨fun html pattern res l h hl =>
      extract_links_no_qf (clean_url_fixed_no_q hb) (clean_url_fixed_no_h hb)
        html pattern h l hl,
   fun max_depth tv visited k => popBatch_visited_append max_depth tv visited k⟩

/-- Witness for the amended C3 at a concrete base URL and page: a href
carrying a query and a fragment is emitted with both stripped. -/
theorem C3_amended_witness :
    clean_url "https://s.test" = "https://s.test" ∧
    extract_links_from_html "<a href=\"/a?q=1#f\">x</a>" "https://s.test" "" =
      .ok ["https://s.test/a"] ∧
    ('?' ∉ "https://s.test/a".data ∧ '#' ∉ "https://s.test/a".data) :=
  ⟨by decide, rfl,
   (C3_amended "https://s.test" (by decide)).1 "<a href=\"/a?q=1#f\">x</a>" ""
     ["https://s.test/a"] "https://s.test/a" rfl (by decide)⟩

end Docpull


